import Mathlib

/-!
Verification of the route-optimisation-engine shortest-path core.

The definitions below are a shallow embedding of the JavaScript source:
* the binary min-heap priority queue (class MinHeap in the heap utility
  module), embedded as a list of entries plus an association list that
  models the nodeIndices Map;
* the Dijkstra shortest-path routine calculateShortestPath together with
  its optional route cache (a Map keyed by the string start ++ ":" ++ end);
* the greedy assignment planner assignDriversToOrders and the ETA
  summarizer calculateRouteAndETA.

JavaScript numbers are modelled as rationals, Infinity as the top element
of WithTop, and the distances object (whose lookups on absent keys yield
undefined, which compares false against any number) as a total function
into WithTop with explicit membership guards where the source relies on
undefined-comparison being false.
-/

abbrev Node := String

/-- Infinity-capable numeric value (the distance domain). -/
abbrev Distance := WithTop ℚ

/-- First-match association lookup: the semantics of JavaScript object
property access and Map.get over our association-list model (keys are
unique at runtime, so first-match agrees with the object semantics). -/
def assocFind {β : Type} (k : Node) : List (Node × β) → Option β
  | [] => none
  | p :: rest => if k = p.1 then some p.2 else assocFind k rest

/-- One entry of the binary heap: `{ node, priority }`. -/
structure HeapEntry where
  node : Node
  priority : ℚ
deriving DecidableEq

/-- Placeholder entry used for out-of-range list reads; all heap accesses
performed by the operations stay in range on states reachable from the
empty heap (proved below via the index-accuracy invariant). -/
def junkEntry : HeapEntry := ⟨"", 0⟩

/-- The nodeIndices Map: node identifier to position in the heap array. -/
abbrev IdxMap := List (Node × Nat)

/-- Map.get -/
def idxGet (m : IdxMap) (k : Node) : Option Nat := assocFind k m

/-- Map.set (overwrite-or-add) -/
def idxSet (m : IdxMap) (k : Node) (v : Nat) : IdxMap :=
  (k, v) :: m.filter fun p => p.1 != k

/-- Map.delete -/
def idxDel (m : IdxMap) (k : Node) : IdxMap :=
  m.filter fun p => p.1 != k

/-- The MinHeap class state: backing array and the nodeIndices Map. -/
structure MinHeap where
  heap : List HeapEntry
  nodeIndices : IdxMap
deriving DecidableEq

/-- new MinHeap() -/
def MinHeap.empty : MinHeap := ⟨[], []⟩

/-- this.heap[i].priority (with the out-of-range placeholder). -/
def MinHeap.prio (m : MinHeap) (i : Nat) : ℚ := (m.heap.getD i junkEntry).priority

/-- _swap(i, j): exchange heap[i] and heap[j], then record both new
positions in nodeIndices (heap[i].node first, heap[j].node second). -/
def MinHeap.swap (m : MinHeap) (i j : Nat) : MinHeap :=
  let a := m.heap.getD i junkEntry
  let b := m.heap.getD j junkEntry
  ⟨(m.heap.set i b).set j a, idxSet (idxSet m.nodeIndices b.node i) a.node j⟩

theorem MinHeap.swap_heap_length (m : MinHeap) (i j : Nat) :
    (m.swap i j).heap.length = m.heap.length := by
  simp [MinHeap.swap]

/-- _bubbleUp(index): sift the entry at `index` up while it beats its
parent Math.floor((index-1)/2). The fuel argument makes the recursion
structural; since the index strictly decreases on every iteration, fuel
equal to the starting index never runs out (the fuel-zero case is only
reached at index 0, where the loop guard is false anyway). -/
def MinHeap.bubbleUpAux : Nat → MinHeap → Nat → MinHeap
  | 0, m, _ => m
  | fuel + 1, m, index =>
    if 0 < index ∧ m.prio index < m.prio ((index - 1) / 2) then
      MinHeap.bubbleUpAux fuel (m.swap index ((index - 1) / 2)) ((index - 1) / 2)
    else m

def MinHeap.bubbleUp (m : MinHeap) (index : Nat) : MinHeap :=
  MinHeap.bubbleUpAux index m index

/-- The target index chosen by one round of _bubbleDown: the smaller of
the children 2i+1, 2i+2 when in range and strictly smaller. -/
def MinHeap.smallestIdx (m : MinHeap) (index : Nat) : Nat :=
  let s1 := if 2 * index + 1 < m.heap.length ∧ m.prio (2 * index + 1) < m.prio index
    then 2 * index + 1 else index
  if 2 * index + 2 < m.heap.length ∧ m.prio (2 * index + 2) < m.prio s1
    then 2 * index + 2 else s1

theorem MinHeap.smallestIdx_cases (m : MinHeap) (index : Nat) :
    m.smallestIdx index = index ∨
      (index < m.smallestIdx index ∧ m.smallestIdx index < m.heap.length) := by
  simp only [MinHeap.smallestIdx]
  by_cases h1 : 2 * index + 1 < m.heap.length ∧ m.prio (2 * index + 1) < m.prio index
  · rw [if_pos h1]
    by_cases h2 : 2 * index + 2 < m.heap.length ∧ m.prio (2 * index + 2) < m.prio (2 * index + 1)
    · rw [if_pos h2]; right; exact ⟨by omega, h2.1⟩
    · rw [if_neg h2]; right; exact ⟨by omega, h1.1⟩
  · rw [if_neg h1]
    by_cases h2 : 2 * index + 2 < m.heap.length ∧ m.prio (2 * index + 2) < m.prio index
    · rw [if_pos h2]; right; exact ⟨by omega, h2.1⟩
    · rw [if_neg h2]; left; rfl

/-- _bubbleDown(index): sift down, swapping with the smallest child until
the heap order is locally restored. The index strictly increases and
stays below the (swap-invariant) array length on every iteration, so fuel
equal to the array length never runs out. -/
def MinHeap.bubbleDownAux : Nat → MinHeap → Nat → MinHeap
  | 0, m, _ => m
  | fuel + 1, m, index =>
    let smallest := m.smallestIdx index
    if smallest ≠ index then MinHeap.bubbleDownAux fuel (m.swap index smallest) smallest
    else m

def MinHeap.bubbleDown (m : MinHeap) (index : Nat) : MinHeap :=
  MinHeap.bubbleDownAux m.heap.length m index

/-- insert(node, priority) -/
def MinHeap.insert (m : MinHeap) (node : Node) (priority : ℚ) : MinHeap :=
  let h := m.heap ++ [⟨node, priority⟩]
  (MinHeap.mk h (idxSet m.nodeIndices node (h.length - 1))).bubbleUp (h.length - 1)

/-- extractMin(): dispatches on this.heap.length exactly as the source
(0: null; 1: pop; otherwise swap-root-with-popped-last then sift down).
Returns the removed root (none when empty) together with the post-state. -/
def MinHeap.extractMin (m : MinHeap) : Option HeapEntry × MinHeap :=
  if m.heap.length = 0 then (none, m)
  else if m.heap.length = 1 then
    let min := m.heap.getD 0 junkEntry
    (some min, ⟨[], idxDel m.nodeIndices min.node⟩)
  else
    let min := m.heap.getD 0 junkEntry
    let last := m.heap.getLastD junkEntry
    let m1 : MinHeap := ⟨(m.heap.dropLast).set 0 last,
      idxDel (idxSet m.nodeIndices last.node 0) min.node⟩
    (some min, m1.bubbleDown 0)

/-- decreaseKey(node, newPriority): in-place decrease when the tracked
index exists and the new priority is strictly smaller, otherwise
re-insert (duplicate-tolerant fallback). -/
def MinHeap.decreaseKey (m : MinHeap) (node : Node) (newPriority : ℚ) : MinHeap :=
  match idxGet m.nodeIndices node with
  | some idx =>
    if newPriority < (m.heap.getD idx junkEntry).priority then
      (MinHeap.mk (m.heap.set idx ⟨(m.heap.getD idx junkEntry).node, newPriority⟩)
        m.nodeIndices).bubbleUp idx
    else m.insert node newPriority
  | none => m.insert node newPriority

/-- isEmpty() -/
def MinHeap.isEmpty (m : MinHeap) : Bool := m.heap.isEmpty

/-- The road-network graph: adjacency object, a key-ordered list of
(node, edge object) pairs, each edge object a list of
(neighbor, weight) pairs. JavaScript object keys are unique. -/
structure Graph where
  adj : List (Node × List (Node × ℚ))
deriving DecidableEq

/-- graph[n] (undefined modelled as none). -/
def Graph.find (g : Graph) (n : Node) : Option (List (Node × ℚ)) := assocFind n g.adj

/-- Object.keys(graph) -/
def Graph.keys (g : Graph) : List Node := g.adj.map Prod.fst

theorem Graph.find_eq_none_iff (g : Graph) (n : Node) :
    g.find n = none ↔ n ∉ g.keys := by
  unfold Graph.find Graph.keys
  induction g.adj with
  | nil => simp [assocFind]
  | cons p rest ih =>
    by_cases h : n = p.1
    · subst h
      simp [assocFind]
    · simp only [assocFind, if_neg h, List.map_cons, List.mem_cons]
      rw [ih]
      simp [h]

/-- The result object { distance, path }. -/
structure PathResult where
  distance : Distance
  path : List Node
deriving DecidableEq

/-- The route cache: a Map keyed by the string start ++ ":" ++ end. -/
abbrev Cache := List (String × PathResult)

/-- The composite cache key. -/
def cacheKey (start finish : Node) : String := start ++ ":" ++ finish

/-- routeCache.set(key, result) on the optional cache. -/
def cacheStore (rc : Option Cache) (start finish : Node) (r : PathResult) : Option Cache :=
  rc.map fun c => (cacheKey start finish, r) :: c.filter fun p => p.1 != cacheKey start finish

/-- routeCache.get(key) on the optional cache. -/
def cacheGet (rc : Option Cache) (start finish : Node) : Option PathResult :=
  rc.bind fun c => assocFind (cacheKey start finish) c

/-- The mutable algorithm state of calculateShortestPath: distances and
previous objects, the visited Set, and the priority queue. Lookups of
distances on nodes outside Object.keys(graph) yield undefined in the
source, which compares false under both > and <; the total function with
default top plus the explicit membership guard in relaxEdge reproduces
exactly that behaviour. -/
structure DijkstraState where
  dist : Node → Distance
  prev : Node → Option Node
  visited : List Node
  heap : MinHeap

/-- The body of the neighbor-update forEach for a single edge
(neighbor, weight): skip visited neighbors; relax when the neighbor is a
graph key (distances[neighbor] defined) and the new distance strictly
improves; on improvement update distance, predecessor and the queue. -/
def relaxEdge (g : Graph) (current : Node) (currentDist : ℚ)
    (st : DijkstraState) (e : Node × ℚ) : DijkstraState :=
  if e.1 ∈ st.visited then st
  else
    let newDist := currentDist + e.2
    if (g.find e.1).isSome ∧ ((newDist : Distance) < st.dist e.1) then
      { st with
        dist := Function.update st.dist e.1 (newDist : Distance)
        prev := Function.update st.prev e.1 (some current)
        heap := st.heap.decreaseKey e.1 newDist }
    else st

/-- if (graph[current]) { Object.entries(graph[current]).forEach(...) } -/
def relaxNeighbors (g : Graph) (current : Node) (currentDist : ℚ)
    (st : DijkstraState) : DijkstraState :=
  match g.find current with
  | none => st
  | some edges => edges.foldl (relaxEdge g current currentDist) st

theorem relaxEdge_visited (g : Graph) (current : Node) (currentDist : ℚ)
    (st : DijkstraState) (e : Node × ℚ) :
    (relaxEdge g current currentDist st e).visited = st.visited := by
  simp only [relaxEdge]
  split
  · rfl
  · split <;> rfl

theorem relaxNeighbors_visited (g : Graph) (current : Node) (currentDist : ℚ)
    (st : DijkstraState) :
    (relaxNeighbors g current currentDist st).visited = st.visited := by
  unfold relaxNeighbors
  split
  · rfl
  · next edges _ =>
    clear * -
    induction edges generalizing st with
    | nil => rfl
    | cons e rest ih => simpa [relaxEdge_visited] using ih (relaxEdge g current currentDist st e)

theorem relaxNeighbors_of_find_none (g : Graph) (current : Node) (currentDist : ℚ)
    (st : DijkstraState) (h : g.find current = none) :
    relaxNeighbors g current currentDist st = st := by
  unfold relaxNeighbors
  rw [h]

theorem MinHeap.bubbleDownAux_heap_length (fuel : Nat) (m : MinHeap) (i : Nat) :
    (MinHeap.bubbleDownAux fuel m i).heap.length = m.heap.length := by
  induction fuel generalizing m i with
  | zero => rfl
  | succ fuel ih =>
    simp only [MinHeap.bubbleDownAux]
    split
    · rw [ih, MinHeap.swap_heap_length]
    · rfl

theorem MinHeap.bubbleDown_heap_length (m : MinHeap) (i : Nat) :
    (m.bubbleDown i).heap.length = m.heap.length :=
  MinHeap.bubbleDownAux_heap_length m.heap.length m i

theorem MinHeap.bubbleUpAux_heap_length (fuel : Nat) (m : MinHeap) (i : Nat) :
    (MinHeap.bubbleUpAux fuel m i).heap.length = m.heap.length := by
  induction fuel generalizing m i with
  | zero => rfl
  | succ fuel ih =>
    simp only [MinHeap.bubbleUpAux]
    split
    · rw [ih, MinHeap.swap_heap_length]
    · rfl

theorem MinHeap.bubbleUp_heap_length (m : MinHeap) (i : Nat) :
    (m.bubbleUp i).heap.length = m.heap.length :=
  MinHeap.bubbleUpAux_heap_length i m i

theorem MinHeap.extractMin_some_length (m : MinHeap) (e : HeapEntry) (m' : MinHeap)
    (h : m.extractMin = (some e, m')) : m'.heap.length + 1 = m.heap.length := by
  unfold MinHeap.extractMin at h
  by_cases h0 : m.heap.length = 0
  · rw [if_pos h0] at h
    exact absurd (congrArg Prod.fst h) (by simp)
  · rw [if_neg h0] at h
    by_cases h1 : m.heap.length = 1
    · rw [if_pos h1] at h
      have := congrArg Prod.snd h
      simp only at this
      rw [← this]
      simp [h1]
    · rw [if_neg h1] at h
      have := congrArg Prod.snd h
      simp only at this
      rw [← this, MinHeap.bubbleDown_heap_length]
      simp only [List.length_set, List.length_dropLast]
      omega

/-- The main Dijkstra loop: while the queue is nonempty, pop; discard
stale or already-finalized entries; otherwise finalize the node and relax
its outgoing edges. The fuel argument makes the recursion structural:
every iteration pops exactly one queue entry, a node is finalized at most
once, and each finalization pushes at most its out-degree many entries,
so the total number of iterations is bounded by one (for the seeded
source) plus the total edge count; dijkstraFuel below is that bound, and
the heap-emptiness theorem proved later shows it never runs out. -/
def dijkstraLoopAux (g : Graph) : Nat → DijkstraState → DijkstraState
  | 0, st => st
  | fuel + 1, st =>
    match st.heap.extractMin with
    | (none, _) => st
    | (some minItem, heapAfter) =>
      let st1 : DijkstraState := { st with heap := heapAfter }
      if minItem.node ∈ st.visited ∨ (minItem.priority : Distance) > st.dist minItem.node then
        dijkstraLoopAux g fuel st1
      else
        dijkstraLoopAux g fuel (relaxNeighbors g minItem.node minItem.priority
          { st1 with visited := minItem.node :: st1.visited })

/-- Total number of adjacency entries of the graph. -/
def graphEdgeCount (g : Graph) : Nat := (g.adj.map fun p => p.2.length).sum

/-- Iteration bound for the Dijkstra loop (see dijkstraLoopAux). -/
def dijkstraFuel (g : Graph) : Nat := 1 + graphEdgeCount g

/-- Path reconstruction: while (current !== null) { path.unshift(current);
current = previous[current]; }. The fuel argument bounds the walk; the
predecessor invariants established below show that the number of graph
keys always suffices, so the cut-off branch is never taken on states
produced by the loop. -/
def walkPrev (prev : Node → Option Node) : Nat → Option Node → List Node → List Node
  | _, none, path => path
  | 0, some _, path => path
  | fuel + 1, some current, path => walkPrev prev fuel (prev current) (current :: path)

/-- The computation performed by calculateShortestPath on a cache miss:
degenerate cases, Dijkstra, path reconstruction with the defensive
start-consistency check. -/
def calculateShortestPathCore (g : Graph) (start finish : Node) : PathResult :=
  if start = finish then ⟨((0 : ℚ) : Distance), [start]⟩
  else if (g.find start).isNone ∨ (g.find finish).isNone then ⟨⊤, []⟩
  else
    let st0 : DijkstraState :=
      { dist := Function.update (fun _ => (⊤ : Distance)) start ((0 : ℚ) : Distance)
        prev := fun _ => none
        visited := []
        heap := MinHeap.empty.insert start 0 }
    let st := dijkstraLoopAux g (dijkstraFuel g) st0
    let distance := st.dist finish
    if distance ≠ ⊤ then
      let path := walkPrev st.prev g.keys.length (some finish) []
      if path.head? = some start then ⟨distance, path⟩
      else ⟨⊤, []⟩
    else ⟨⊤, []⟩

/-- calculateShortestPath(graph, start, end, routeCache): cache probe,
then the core computation. Returns the result together with the cache
state (the source mutates the caller's Map). Every return branch of the
source stores exactly the result object it returns under the same key,
so the per-branch cache writes are hoisted into this single write-back. -/
def calculateShortestPath (g : Graph) (start finish : Node)
    (routeCache : Option Cache) : PathResult × Option Cache :=
  match cacheGet routeCache start finish with
  | some cached => (cached, routeCache)
  | none =>
    let result := calculateShortestPathCore g start finish
    (result, cacheStore routeCache start finish result)

/-! ## The assignment planner and the ETA summarizer

assignDriversToOrders mutates per-run shallow clones of the caller's
driver objects, and the returned assignment records alias those clones
(later mutations are visible through the records). To state such aliasing
facts, driver objects live in an explicit store (address-indexed heap):
the caller passes addresses of its driver objects, the planner allocates
fresh addresses for the clones and mutates only those.
-/

/-- A driver object. The dynamically attached `_tempPath` property is an
optional field (none = property absent / deleted). -/
structure Driver where
  availability : Bool
  capacity : ℚ
  currentLocation : Option String
  tempPath : Option (List Node)
deriving DecidableEq

/-- An order object. size and priority may be absent. -/
structure Order where
  destination : Node
  size : Option ℚ
  priority : Option ℚ
deriving DecidableEq

/-- order.size || 0 (also maps an explicit 0 to 0). -/
def orderSize (o : Order) : ℚ :=
  match o.size with
  | none => 0
  | some s => s

/-- order.priority || 1 (JavaScript: undefined and 0 are falsy). -/
def orderPriority (o : Order) : ℚ :=
  match o.priority with
  | none => 1
  | some p => if p = 0 then 1 else p

/-- driver.currentLocation || 'depot' (JavaScript: undefined and the
empty string are falsy). -/
def driverStart (d : Driver) : Node :=
  match d.currentLocation with
  | none => "depot"
  | some s => if s = "" then "depot" else s

/-- The driver-object heap: contents plus allocation frontier (every
live object sits below next). -/
structure Store where
  mem : Nat → Driver
  next : Nat

def Store.read (σ : Store) (a : Nat) : Driver := σ.mem a

def Store.write (σ : Store) (a : Nat) (d : Driver) : Store :=
  ⟨Function.update σ.mem a d, σ.next⟩

def Store.alloc (σ : Store) (d : Driver) : Store × Nat :=
  (⟨Function.update σ.mem σ.next d, σ.next + 1⟩, σ.next)

/-- [...drivers].map(d => ({ ...d })): allocate a fresh shallow clone of
every caller driver, left to right. -/
def cloneDrivers (σ : Store) : List Nat → Store × List Nat
  | [] => (σ, [])
  | a :: rest =>
    let p := σ.alloc (σ.read a)
    let r := cloneDrivers p.1 rest
    (r.1, p.2 :: r.2)

/-- One assignment record. driver is the address of the working-copy
driver object the record aliases. -/
structure Assignment where
  driver : Nat
  order : Order
  assignmentScore : Distance
  distance : Distance
  route : List Node
deriving DecidableEq

/-- State of the inner candidate scan: the store (the scan mutates the
current best candidate's _tempPath), the route cache threaded through the
shortest-path queries, and the best candidate found so far. The source
also tracks a bestIndex variable, which is written but never read; it is
omitted here. -/
structure ScanState where
  store : Store
  cache : Option Cache
  bestDriver : Option Nat
  bestDistance : Distance

/-- Body of the candidate loop for one candidate address: skip when
unavailable or too small; otherwise query the shortest path and, on a
strict improvement, record the candidate and stash the path on its
_tempPath property. -/
def scanOrderStep (g : Graph) (o : Order) (s : ScanState) (a : Nat) : ScanState :=
  let d := s.store.read a
  if d.availability = false ∨ d.capacity < orderSize o then s
  else
    let pr := calculateShortestPath g (driverStart d) o.destination s.cache
    if pr.1.distance < s.bestDistance then
      { store := s.store.write a { d with tempPath := some pr.1.path }
        cache := pr.2
        bestDriver := some a
        bestDistance := pr.1.distance }
    else { s with cache := pr.2 }

/-- Accumulated run state: the store, the shared route cache, and the
assignments list. -/
structure RunState where
  store : Store
  cache : Option Cache
  assignments : List Assignment

/-- The full candidate scan for one order: fold the candidate loop over
the working drivers, starting from no best candidate and best distance
Infinity. -/
def scanOrder (g : Graph) (o : Order) (avail : List Nat) (rs : RunState) : ScanState :=
  avail.foldl (scanOrderStep g o) ⟨rs.store, rs.cache, none, ⊤⟩

/-- Processing of a single order: scan all working drivers, then, if a
best candidate exists and is reachable, push the assignment record
(holding the candidate's address) and only afterwards mutate the
candidate: availability = false, capacity -= size, delete _tempPath. -/
def processOrder (g : Graph) (avail : List Nat) (rs : RunState) (o : Order) : RunState :=
  let scan := scanOrder g o avail rs
  match scan.bestDriver with
  | none => ⟨scan.store, scan.cache, rs.assignments⟩
  | some a =>
    if scan.bestDistance ≠ ⊤ then
      let d := scan.store.read a
      let score := scan.bestDistance + ((10 / orderPriority o : ℚ) : Distance)
      let route :=
        match d.tempPath with
        | some p => p
        | none => [driverStart d, o.destination]
      let asg : Assignment := ⟨a, o, score, scan.bestDistance, route⟩
      let σ2 := scan.store.write a
        { d with availability := false, capacity := d.capacity - orderSize o, tempPath := none }
      ⟨σ2, scan.cache, rs.assignments ++ [asg]⟩
    else ⟨scan.store, scan.cache, rs.assignments⟩

/-- assignDriversToOrders(drivers, orders, graph, routeCache): clone the
drivers, then process the orders in input order. Returns the final run
state (assignments plus the mutated store and cache). -/
def assignDriversToOrders (σ : Store) (drivers : List Nat) (orders : List Order)
    (g : Graph) (routeCache : Option Cache) : RunState :=
  let cl := cloneDrivers σ drivers
  orders.foldl (processOrder g cl.2) ⟨cl.1, routeCache, []⟩

/-- Math.round: round half toward positive infinity. -/
def jsRound (x : ℚ) : ℤ := ⌊x + 1 / 2⌋

/-- Result of calculateRouteAndETA. estimatedArrival (wall-clock now plus
eta) is a presentation field depending on real time and is not modelled. -/
structure RouteETA where
  route : List Node
  distance : ℚ
  eta : ℤ
  isUnreachable : Bool
deriving DecidableEq

/-- calculateRouteAndETA(driver, order, graph, routeCache): re-derive the
path, convert the distance into minutes at the fixed 30 km/h average
speed, report 0 minutes and distance 0 when unreachable. -/
def calculateRouteAndETA (driver : Driver) (o : Order) (g : Graph)
    (routeCache : Option Cache) : RouteETA × Option Cache :=
  let pr := calculateShortestPath g (driverStart driver) o.destination routeCache
  let distance := pr.1.distance
  let speedKmh : ℚ := 30
  let etaMinutes : ℤ :=
    if distance ≠ ⊤ then jsRound (WithTop.untop' 0 distance / speedKmh * 60) else 0
  let route := if 0 < pr.1.path.length then pr.1.path else []
  (⟨route,
    if distance ≠ ⊤ then WithTop.untop' 0 distance else 0,
    etaMinutes,
    decide (distance = ⊤)⟩, pr.2)

/-! ## Concrete graph from the specification's test scenario -/

def demoGraph : Graph := ⟨[
  ("depot", [("locA", 10), ("locB", 25), ("locC", 40)]),
  ("locA", [("depot", 10), ("locB", 15), ("locC", 30)]),
  ("locB", [("depot", 25), ("locA", 15), ("locC", 20)]),
  ("locC", [("depot", 40), ("locA", 30), ("locB", 20)])]⟩

/-- C2: on the concrete four-node graph, the shortest path from depot to
locC has distance 40 and is the direct edge [depot, locC]: the
equal-cost 10+30 detour through locA does not displace the direct route
because relaxation requires a strict improvement. -/
theorem shortest_path_concrete_direct_edge :
    (calculateShortestPath demoGraph "depot" "locC" none).1 =
      ⟨((40 : ℚ) : Distance), ["depot", "locC"]⟩ := by
  with_unfolding_all decide

/-- C3: same source and target short-circuits to distance 0 and the
single-node path before the graph is even consulted; distinct endpoints
with either endpoint absent from the graph's node map yield the
infinite-distance sentinel and an empty path. (No cache is passed, as in
the claim.) -/
theorem shortest_path_degenerate_cases (g : Graph) (n s t : Node) (hst : s ≠ t)
    (habs : g.find s = none ∨ g.find t = none) :
    (calculateShortestPath g n n none).1 = ⟨((0 : ℚ) : Distance), [n]⟩ ∧
    (calculateShortestPath g s t none).1 = ⟨⊤, []⟩ := by
  have hcond : (g.find s).isNone = true ∨ (g.find t).isNone = true := by
    rcases habs with h | h
    · left; rw [h]; rfl
    · right; rw [h]; rfl
  constructor
  · show calculateShortestPathCore g n n = _
    simp [calculateShortestPathCore]
  · show calculateShortestPathCore g s t = _
    unfold calculateShortestPathCore
    rw [if_neg hst, if_pos hcond]

theorem shortest_path_degenerate_cases_witness :
    (("unknown" : Node) ≠ "locA" ∧
      (demoGraph.find "unknown" = none ∨ demoGraph.find "locA" = none)) ∧
    ((calculateShortestPath demoGraph "depot" "depot" none).1 =
        ⟨((0 : ℚ) : Distance), ["depot"]⟩ ∧
      (calculateShortestPath demoGraph "unknown" "locA" none).1 = ⟨⊤, []⟩) :=
  ⟨⟨by decide, by decide⟩,
    shortest_path_degenerate_cases demoGraph "depot" "unknown" "locA" (by decide) (by decide)⟩

/-- C9: the reported eta is Math.round(distance / 30 * 60) minutes when
the shortest-path distance is finite, and 0 when the destination is
unreachable. -/
theorem eta_formula (driver : Driver) (o : Order) (g : Graph) (rc : Option Cache) :
    (∀ d : ℚ, (calculateShortestPath g (driverStart driver) o.destination rc).1.distance =
        (d : Distance) →
      (calculateRouteAndETA driver o g rc).1.eta = jsRound (d / 30 * 60)) ∧
    ((calculateShortestPath g (driverStart driver) o.destination rc).1.distance = ⊤ →
      (calculateRouteAndETA driver o g rc).1.eta = 0) := by
  constructor
  · intro d hd
    simp [calculateRouteAndETA, hd]
  · intro hd
    simp [calculateRouteAndETA, hd]

theorem eta_formula_witness :
    ((calculateShortestPath (Graph.mk []) (driverStart ⟨true, 100, none, none⟩)
        "locC" none).1.distance = ⊤) ∧
    (calculateRouteAndETA ⟨true, 100, none, none⟩ ⟨"locC", none, none⟩ (Graph.mk [])
        none).1.eta = 0 :=
  ⟨by decide,
    (eta_formula ⟨true, 100, none, none⟩ ⟨"locC", none, none⟩ (Graph.mk []) none).2 (by decide)⟩

/-! ## Cache transparency (C4) -/

/-- Run a sequence of (source, target) queries against one graph,
threading the optional cache (null or a caller-supplied Map) through the
calls, collecting each query's result in order. -/
def runQueries (g : Graph) (qs : List (Node × Node)) (rc : Option Cache) :
    List PathResult × Option Cache :=
  qs.foldl (fun acc q =>
    let r := calculateShortestPath g q.1 q.2 acc.2
    (acc.1 ++ [r.1], r.2)) ([], rc)

/-- C4 counterexample: the cache key joins source and target with a bare
":", so the queries ("a:a", "a:a") and ("a", "a:a:a") share the key
"a:a:a:a". On the empty graph the first query (source = target) caches
distance 0; the second query, whose uncached answer is the unreachable
sentinel, then returns the first query's cached result instead. -/
theorem cache_key_collision_changes_results :
    (runQueries (Graph.mk []) [("a:a", "a:a"), ("a", "a:a:a")] (some [])).1 ≠
      (runQueries (Graph.mk []) [("a:a", "a:a"), ("a", "a:a:a")] none).1 := by
  decide

/-- No colon occurs in the node name. -/
def colonFree (s : String) : Prop := (':' : Char) ∉ s.data

instance colonFreeDecidable (s : String) : Decidable (colonFree s) :=
  inferInstanceAs (Decidable ((':' : Char) ∉ s.data))

theorem append_colon_inj {a b c d : List Char}
    (ha : (':' : Char) ∉ a) (hc : (':' : Char) ∉ c)
    (h : a ++ (':' : Char) :: b = c ++ (':' : Char) :: d) : a = c ∧ b = d := by
  induction a generalizing c with
  | nil =>
    cases c with
    | nil => simpa using h
    | cons x xs =>
      simp only [List.nil_append, List.cons_append, List.cons.injEq] at h
      exact absurd (h.1 ▸ List.mem_cons_self x xs) hc
  | cons x xs ih =>
    cases c with
    | nil =>
      simp only [List.cons_append, List.nil_append, List.cons.injEq] at h
      exact absurd (h.1 ▸ List.mem_cons_self x xs) ha
    | cons y ys =>
      simp only [List.cons_append, List.cons.injEq] at h
      have hxs : (':' : Char) ∉ xs := fun hm => ha (List.mem_cons_of_mem _ hm)
      have hys : (':' : Char) ∉ ys := fun hm => hc (List.mem_cons_of_mem _ hm)
      obtain ⟨h1, h2⟩ := ih hxs hys h.2
      exact ⟨by rw [h.1, h1], h2⟩

theorem cacheKey_inj {s t u v : Node} (hs : colonFree s) (ht : colonFree t)
    (hu : colonFree u) (hv : colonFree v) (h : cacheKey s t = cacheKey u v) :
    s = u ∧ t = v := by
  have hdata : s.data ++ (':' : Char) :: t.data = u.data ++ (':' : Char) :: v.data := by
    have := congrArg String.data h
    simpa [cacheKey, String.data_append] using this
  obtain ⟨h1, h2⟩ := append_colon_inj hs hu hdata
  constructor
  · cases s; cases u; exact congrArg String.mk h1
  · cases t; cases v; exact congrArg String.mk h2

theorem assocFind_mem {β : Type} {k : Node} {c : List (Node × β)} {v : β}
    (h : assocFind k c = some v) : (k, v) ∈ c := by
  induction c with
  | nil => simp [assocFind] at h
  | cons p rest ih =>
    by_cases hk : k = p.1
    · rw [assocFind, if_pos hk] at h
      subst hk
      have hv : v = p.2 := (Option.some_inj.mp h).symm
      subst hv
      simpa using List.mem_cons_self p rest
    · rw [assocFind, if_neg hk] at h
      exact List.mem_cons_of_mem _ (ih h)

theorem sp_hit (g : Graph) (s t : Node) (rc : Option Cache) (r : PathResult)
    (h : cacheGet rc s t = some r) :
    calculateShortestPath g s t rc = (r, rc) := by
  unfold calculateShortestPath
  rw [h]

theorem sp_miss (g : Graph) (s t : Node) (rc : Option Cache)
    (h : cacheGet rc s t = none) :
    calculateShortestPath g s t rc =
      (calculateShortestPathCore g s t,
        cacheStore rc s t (calculateShortestPathCore g s t)) := by
  unfold calculateShortestPath
  rw [h]

/-- Soundness of a cache state: every entry whose key is the cache key of
a colon-free query pair stores exactly the core result of that query. -/
def CacheOK (g : Graph) (c : Cache) : Prop :=
  ∀ p ∈ c, ∀ s t : Node, colonFree s → colonFree t → p.1 = cacheKey s t →
    p.2 = calculateShortestPathCore g s t

theorem cacheOK_hit {g : Graph} {c : Cache} {s t : Node} {r : PathResult}
    (hc : CacheOK g c) (hs : colonFree s) (ht : colonFree t)
    (h : cacheGet (some c) s t = some r) : r = calculateShortestPathCore g s t := by
  have hmem : (cacheKey s t, r) ∈ c := assocFind_mem h
  exact hc _ hmem s t hs ht rfl

theorem cacheOK_store {g : Graph} {c : Cache} {s t : Node}
    (hc : CacheOK g c) (hs : colonFree s) (ht : colonFree t) :
    CacheOK g ((cacheKey s t, calculateShortestPathCore g s t) ::
      c.filter fun p => p.1 != cacheKey s t) := by
  intro p hp u v hu hv hkey
  rcases List.mem_cons.mp hp with rfl | hold
  · obtain ⟨rfl, rfl⟩ := cacheKey_inj hs ht hu hv hkey
    rfl
  · exact hc _ (List.mem_of_mem_filter hold) u v hu hv hkey

/-- One query step of runQueries. -/
def runQueryStep (g : Graph) (acc : List PathResult × Option Cache) (q : Node × Node) :
    List PathResult × Option Cache :=
  let r := calculateShortestPath g q.1 q.2 acc.2
  (acc.1 ++ [r.1], r.2)

theorem runQueries_eq_foldl (g : Graph) (qs : List (Node × Node)) (rc : Option Cache) :
    runQueries g qs rc = qs.foldl (runQueryStep g) ([], rc) := rfl

theorem cached_run_matches_uncached (g : Graph) (qs : List (Node × Node))
    (hq : ∀ q ∈ qs, colonFree q.1 ∧ colonFree q.2) :
    ∀ (acc : List PathResult) (c : Cache), CacheOK g c →
      (qs.foldl (runQueryStep g) (acc, some c)).1 =
        (qs.foldl (runQueryStep g) (acc, none)).1 := by
  induction qs with
  | nil => intro acc c _; rfl
  | cons q rest ih =>
    intro acc c hc
    have hrest : ∀ p ∈ rest, colonFree p.1 ∧ colonFree p.2 := by
      intro p hp
      exact hq p (List.mem_cons_of_mem _ hp)
    obtain ⟨hs, ht⟩ := hq q (List.mem_cons_self _ _)
    have hnone : runQueryStep g (acc, none) q =
        (acc ++ [calculateShortestPathCore g q.1 q.2], none) := by
      unfold runQueryStep
      rw [sp_miss g q.1 q.2 none rfl]
      rfl
    simp only [List.foldl_cons]
    rw [hnone]
    cases hhit : cacheGet (some c) q.1 q.2 with
    | some r =>
      have hstep : runQueryStep g (acc, some c) q = (acc ++ [r], some c) := by
        unfold runQueryStep
        rw [sp_hit g q.1 q.2 (some c) r hhit]
      rw [hstep, cacheOK_hit hc hs ht hhit]
      exact ih hrest _ c hc
    | none =>
      have hstep : runQueryStep g (acc, some c) q =
          (acc ++ [calculateShortestPathCore g q.1 q.2],
            some ((cacheKey q.1 q.2, calculateShortestPathCore g q.1 q.2) ::
              c.filter fun p => p.1 != cacheKey q.1 q.2)) := by
        unfold runQueryStep
        rw [sp_miss g q.1 q.2 (some c) hhit]
        rfl
      rw [hstep]
      exact ih hrest _ _ (cacheOK_store hc hs ht)

/-- C4 (amended): for query sequences whose source and target names are
colon-free, running with a freshly created empty cache returns exactly
the same result for each query as running with no cache. (As stated over
all node names the claim fails, because the cache key start ++ ":" ++ end
can collide for distinct query pairs; see the counterexample.) -/
theorem cache_transparent_for_colon_free_queries (g : Graph) (qs : List (Node × Node))
    (hq : ∀ q ∈ qs, colonFree q.1 ∧ colonFree q.2) :
    (runQueries g qs (some [])).1 = (runQueries g qs none).1 := by
  rw [runQueries_eq_foldl, runQueries_eq_foldl]
  exact cached_run_matches_uncached g qs hq [] [] (by intro p hp; simp at hp)

theorem cache_transparent_for_colon_free_queries_witness :
    (∀ q ∈ [(("depot" : Node), ("locC" : Node)), ("depot", "locC")],
      colonFree q.1 ∧ colonFree q.2) ∧
    (runQueries demoGraph [("depot", "locC"), ("depot", "locC")] (some [])).1 =
      (runQueries demoGraph [("depot", "locC"), ("depot", "locC")] none).1 :=
  ⟨by decide, cache_transparent_for_colon_free_queries demoGraph _ (by decide)⟩

/-! ## Planner lemmas (C6, C7, C8, C10) -/

theorem Store.read_write_self (σ : Store) (a : Nat) (d : Driver) :
    (σ.write a d).read a = d := by
  simp [Store.read, Store.write]

theorem Store.read_write_ne (σ : Store) (a : Nat) (d : Driver) (x : Nat) (h : x ≠ a) :
    (σ.write a d).read x = σ.read x := by
  simp [Store.read, Store.write, Function.update_apply, h]

theorem Store.alloc_next (σ : Store) (d : Driver) : (σ.alloc d).1.next = σ.next + 1 := rfl

theorem Store.alloc_read_lt (σ : Store) (d : Driver) (x : Nat) (h : x < σ.next) :
    (σ.alloc d).1.read x = σ.read x := by
  have hne : x ≠ σ.next := by omega
  simp [Store.alloc, Store.read, Function.update_apply, hne]

theorem Store.alloc_read_self (σ : Store) (d : Driver) : (σ.alloc d).1.read σ.next = d := by
  simp [Store.alloc, Store.read]

theorem cloneDrivers_next (ds : List Nat) : ∀ σ : Store,
    (cloneDrivers σ ds).1.next = σ.next + ds.length := by
  induction ds with
  | nil => intro σ; simp [cloneDrivers]
  | cons a rest ih =>
    intro σ
    show (cloneDrivers (σ.alloc (σ.read a)).1 rest).1.next = σ.next + (a :: rest).length
    rw [ih, Store.alloc_next]
    simp only [List.length_cons]
    omega

theorem cloneDrivers_addrs (ds : List Nat) : ∀ σ : Store,
    (cloneDrivers σ ds).2 = List.range' σ.next ds.length := by
  induction ds with
  | nil => intro σ; simp [cloneDrivers]
  | cons a rest ih =>
    intro σ
    show σ.next :: (cloneDrivers (σ.alloc (σ.read a)).1 rest).2 =
      σ.next :: List.range' (σ.next + 1) rest.length
    rw [ih, Store.alloc_next]

theorem cloneDrivers_read_out (ds : List Nat) : ∀ (σ : Store) (x : Nat), x < σ.next →
    (cloneDrivers σ ds).1.read x = σ.read x := by
  induction ds with
  | nil => intro σ x _; rfl
  | cons a rest ih =>
    intro σ x hx
    show (cloneDrivers (σ.alloc (σ.read a)).1 rest).1.read x = σ.read x
    rw [ih _ x (by rw [Store.alloc_next]; omega)]
    exact Store.alloc_read_lt σ _ x hx

theorem cloneDrivers_read_clone (ds : List Nat) : ∀ (σ : Store),
    (∀ a ∈ ds, a < σ.next) →
    ∀ i (hi : i < ds.length),
      (cloneDrivers σ ds).1.read (σ.next + i) = σ.read (ds.get ⟨i, hi⟩) := by
  induction ds with
  | nil => intro σ _ i hi; simp at hi
  | cons a rest ih =>
    intro σ hv i hi
    have ha : a < σ.next := hv a (List.mem_cons_self _ _)
    have hvr : ∀ b ∈ rest, b < (σ.alloc (σ.read a)).1.next := by
      intro b hb
      have := hv b (List.mem_cons_of_mem _ hb)
      rw [Store.alloc_next]
      omega
    cases i with
    | zero =>
      show (cloneDrivers (σ.alloc (σ.read a)).1 rest).1.read (σ.next + 0) = σ.read a
      rw [cloneDrivers_read_out rest _ _ (by rw [Store.alloc_next]; omega)]
      rw [Nat.add_zero]
      exact Store.alloc_read_self σ _
    | succ j =>
      have hj : j < rest.length := by
        simp only [List.length_cons] at hi
        omega
      show (cloneDrivers (σ.alloc (σ.read a)).1 rest).1.read (σ.next + (j + 1)) =
        σ.read (rest.get ⟨j, hj⟩)
      have heq : σ.next + (j + 1) = (σ.alloc (σ.read a)).1.next + j := by
        rw [Store.alloc_next]
        omega
      rw [heq, ih (σ.alloc (σ.read a)).1 hvr j hj]
      have hr : rest.get ⟨j, hj⟩ < σ.next := hv _ (List.mem_cons_of_mem a (List.get_mem rest j hj))
      exact Store.alloc_read_lt σ _ _ hr

theorem scanOrderStep_cases (g : Graph) (o : Order) (s : ScanState) (a : Nat) :
    ((scanOrderStep g o s a).bestDriver = s.bestDriver ∧
     (scanOrderStep g o s a).bestDistance = s.bestDistance ∧
     (scanOrderStep g o s a).store = s.store) ∨
    ((scanOrderStep g o s a).bestDriver = some a ∧
     (scanOrderStep g o s a).bestDistance ≠ ⊤ ∧
     (s.store.read a).availability = true ∧ orderSize o ≤ (s.store.read a).capacity ∧
     (scanOrderStep g o s a).store = s.store.write a
       ({ s.store.read a with
          tempPath := some
            ((calculateShortestPath g (driverStart (s.store.read a)) o.destination
              s.cache).1.path) })) := by
  unfold scanOrderStep
  by_cases h1 : (s.store.read a).availability = false ∨ (s.store.read a).capacity < orderSize o
  · rw [if_pos h1]
    exact Or.inl ⟨rfl, rfl, rfl⟩
  · rw [if_neg h1]
    push_neg at h1
    by_cases h2 : (calculateShortestPath g (driverStart (s.store.read a)) o.destination
        s.cache).1.distance < s.bestDistance
    · rw [if_pos h2]
      refine Or.inr ⟨rfl, ne_top_of_lt h2, ?_, h1.2, rfl⟩
      cases hb : (s.store.read a).availability
      · exact absurd hb h1.1
      · rfl
    · rw [if_neg h2]
      exact Or.inl ⟨rfl, rfl, rfl⟩

theorem scan_facts (g : Graph) (o : Order) (σ0 : Store) (avail : List Nat) :
    ∀ s0 : ScanState,
    (∀ x, ((s0.store.read x).availability = (σ0.read x).availability ∧
           (s0.store.read x).capacity = (σ0.read x).capacity)) →
    (((avail.foldl (scanOrderStep g o) s0).bestDriver = s0.bestDriver ∧
        (avail.foldl (scanOrderStep g o) s0).bestDistance = s0.bestDistance) ∨
      (∃ a ∈ avail, (avail.foldl (scanOrderStep g o) s0).bestDriver = some a ∧
        (avail.foldl (scanOrderStep g o) s0).bestDistance ≠ ⊤ ∧
        (σ0.read a).availability = true ∧ orderSize o ≤ (σ0.read a).capacity)) ∧
    (∀ x, (((avail.foldl (scanOrderStep g o) s0).store.read x).availability =
            (σ0.read x).availability ∧
          ((avail.foldl (scanOrderStep g o) s0).store.read x).capacity =
            (σ0.read x).capacity)) ∧
    (∀ x, x ∉ avail → (avail.foldl (scanOrderStep g o) s0).store.read x = s0.store.read x) := by
  induction avail with
  | nil =>
    intro s0 hf
    exact ⟨Or.inl ⟨rfl, rfl⟩, hf, fun x _ => rfl⟩
  | cons a rest ih =>
    intro s0 hf
    simp only [List.foldl_cons]
    have hstep := scanOrderStep_cases g o s0 a
    have hf1 : ∀ x, (((scanOrderStep g o s0 a).store.read x).availability =
        (σ0.read x).availability ∧
        ((scanOrderStep g o s0 a).store.read x).capacity = (σ0.read x).capacity) := by
      intro x
      rcases hstep with ⟨_, _, hst⟩ | ⟨_, _, _, _, hst⟩
      · rw [hst]; exact hf x
      · rw [hst]
        by_cases hx : x = a
        · subst hx
          rw [Store.read_write_self]
          exact hf x
        · rw [Store.read_write_ne _ _ _ _ hx]
          exact hf x
    obtain ⟨hbest, hfields, huntouched⟩ := ih (scanOrderStep g o s0 a) hf1
    refine ⟨?_, hfields, ?_⟩
    · rcases hbest with ⟨hb, hd⟩ | ⟨a2, ha2, hb, hd, hav, hcap⟩
      · rcases hstep with ⟨hb0, hd0, _⟩ | ⟨hb0, hd0, hav0, hcap0, _⟩
        · exact Or.inl ⟨hb.trans hb0, hd.trans hd0⟩
        · refine Or.inr ⟨a, List.mem_cons_self _ _, hb.trans hb0, hd ▸ hd0, ?_, ?_⟩
          · rw [← (hf a).1]; exact hav0
          · rw [← (hf a).2]; exact hcap0
      · exact Or.inr ⟨a2, List.mem_cons_of_mem _ ha2, hb, hd, hav, hcap⟩
    · intro x hx
      have hxa : x ≠ a := fun hc => hx (hc ▸ List.mem_cons_self _ _)
      have hxr : x ∉ rest := fun hc => hx (List.mem_cons_of_mem _ hc)
      rw [huntouched x hxr]
      rcases hstep with ⟨_, _, hst⟩ | ⟨_, _, _, _, hst⟩
      · rw [hst]
      · rw [hst, Store.read_write_ne _ _ _ _ hxa]

/-- Run invariant of the order-processing loop, relative to the post-clone
store σC and the working-copy address list avail: addresses outside the
working set are never written; a still-available working driver has its
original capacity and is referenced by no assignment; every assignment
references a working driver that has been marked unavailable and whose
capacity was decremented by exactly its order's size (which fit into the
original capacity); and no two assignments share a driver. -/
def PlanInv (σC : Store) (avail : List Nat) (rs : RunState) : Prop :=
  (∀ x, x ∉ avail → rs.store.read x = σC.read x) ∧
  (∀ a ∈ avail, (rs.store.read a).availability = true →
     ((rs.store.read a).capacity = (σC.read a).capacity ∧
      ∀ asg ∈ rs.assignments, asg.driver ≠ a)) ∧
  (∀ asg ∈ rs.assignments, asg.driver ∈ avail ∧
     (rs.store.read asg.driver).availability = false ∧
     (rs.store.read asg.driver).capacity =
       (σC.read asg.driver).capacity - orderSize asg.order ∧
     orderSize asg.order ≤ (σC.read asg.driver).capacity) ∧
  (rs.assignments.map fun asg => asg.driver).Nodup

theorem processOrder_none (g : Graph) (avail : List Nat) (rs : RunState) (o : Order)
    (h : (scanOrder g o avail rs).bestDriver = none) :
    processOrder g avail rs o =
      ⟨(scanOrder g o avail rs).store, (scanOrder g o avail rs).cache, rs.assignments⟩ := by
  simp only [processOrder]
  rw [h]

theorem processOrder_some (g : Graph) (avail : List Nat) (rs : RunState) (o : Order) (a : Nat)
    (h : (scanOrder g o avail rs).bestDriver = some a)
    (hd : (scanOrder g o avail rs).bestDistance ≠ ⊤) :
    processOrder g avail rs o =
      ⟨(scanOrder g o avail rs).store.write a
         ({ (scanOrder g o avail rs).store.read a with
            availability := false
            capacity := ((scanOrder g o avail rs).store.read a).capacity - orderSize o
            tempPath := none }),
       (scanOrder g o avail rs).cache,
       rs.assignments ++
         [⟨a, o,
           (scanOrder g o avail rs).bestDistance + ((10 / orderPriority o : ℚ) : Distance),
           (scanOrder g o avail rs).bestDistance,
           match ((scanOrder g o avail rs).store.read a).tempPath with
           | some p => p
           | none => [driverStart ((scanOrder g o avail rs).store.read a), o.destination]⟩]⟩ := by
  simp only [processOrder]
  rw [h]
  dsimp only
  rw [if_pos hd]

theorem processOrder_stuck (g : Graph) (avail : List Nat) (rs : RunState) (o : Order) (a : Nat)
    (h : (scanOrder g o avail rs).bestDriver = some a)
    (hd : ¬ (scanOrder g o avail rs).bestDistance ≠ ⊤) :
    processOrder g avail rs o =
      ⟨(scanOrder g o avail rs).store, (scanOrder g o avail rs).cache, rs.assignments⟩ := by
  simp only [processOrder]
  rw [h]
  dsimp only
  rw [if_neg hd]

theorem scanOrder_facts (g : Graph) (o : Order) (avail : List Nat) (rs : RunState) :
    (((scanOrder g o avail rs).bestDriver = none ∧
        (scanOrder g o avail rs).bestDistance = ⊤) ∨
      (∃ a ∈ avail, (scanOrder g o avail rs).bestDriver = some a ∧
        (scanOrder g o avail rs).bestDistance ≠ ⊤ ∧
        (rs.store.read a).availability = true ∧ orderSize o ≤ (rs.store.read a).capacity)) ∧
    (∀ x, (((scanOrder g o avail rs).store.read x).availability =
            (rs.store.read x).availability ∧
          ((scanOrder g o avail rs).store.read x).capacity = (rs.store.read x).capacity)) ∧
    (∀ x, x ∉ avail → (scanOrder g o avail rs).store.read x = rs.store.read x) :=
  scan_facts g o rs.store avail ⟨rs.store, rs.cache, none, ⊤⟩ (fun _ => ⟨rfl, rfl⟩)

theorem processOrder_inv (g : Graph) (avail : List Nat) (σC : Store)
    (rs : RunState) (o : Order) (h : PlanInv σC avail rs) :
    PlanInv σC avail (processOrder g avail rs o) := by
  obtain ⟨h1, h2, h3, h4⟩ := h
  obtain ⟨hbest, hfields, huntouched⟩ := scanOrder_facts g o avail rs
  rcases hbest with ⟨hbd, _⟩ | ⟨a, hmem, hbd, hdist, havail, hcapge⟩
  · rw [processOrder_none g avail rs o hbd]
    refine ⟨?_, ?_, ?_, h4⟩
    · intro x hx
      show (scanOrder g o avail rs).store.read x = σC.read x
      rw [huntouched x hx]
      exact h1 x hx
    · intro b hb hbav
      change ((scanOrder g o avail rs).store.read b).availability = true at hbav
      rw [(hfields b).1] at hbav
      obtain ⟨hc, hn⟩ := h2 b hb hbav
      exact ⟨by rw [(hfields b).2]; exact hc, hn⟩
    · intro asg hasg
      obtain ⟨hm, hav, hcap, hsz⟩ := h3 asg hasg
      exact ⟨hm, by rw [(hfields asg.driver).1]; exact hav,
        by rw [(hfields asg.driver).2]; exact hcap, hsz⟩
  · rw [processOrder_some g avail rs o a hbd hdist]
    obtain ⟨hcapeq, hnoref⟩ := h2 a hmem havail
    refine ⟨?_, ?_, ?_, ?_⟩
    · intro x hx
      have hxa : x ≠ a := fun hc => hx (hc ▸ hmem)
      show ((scanOrder g o avail rs).store.write a _).read x = σC.read x
      rw [Store.read_write_ne _ _ _ _ hxa, huntouched x hx]
      exact h1 x hx
    · intro b hb hbav
      by_cases hba : b = a
      · subst hba
        change (((scanOrder g o avail rs).store.write b _).read b).availability = true at hbav
        rw [Store.read_write_self] at hbav
        simp at hbav
      · change (((scanOrder g o avail rs).store.write a _).read b).availability = true at hbav
        rw [Store.read_write_ne _ _ _ _ hba] at hbav
        rw [(hfields b).1] at hbav
        obtain ⟨hc, hn⟩ := h2 b hb hbav
        constructor
        · show (((scanOrder g o avail rs).store.write a _).read b).capacity = _
          rw [Store.read_write_ne _ _ _ _ hba, (hfields b).2]
          exact hc
        · intro asg hasg
          rcases List.mem_append.mp hasg with hold | hnew
          · exact hn asg hold
          · rw [List.mem_singleton.mp hnew]
            exact fun hc2 => hba hc2.symm
    · intro asg hasg
      rcases List.mem_append.mp hasg with hold | hnew
      · obtain ⟨hm, hav, hcap, hsz⟩ := h3 asg hold
        have hda : asg.driver ≠ a := hnoref asg hold
        refine ⟨hm, ?_, ?_, hsz⟩
        · show (((scanOrder g o avail rs).store.write a _).read asg.driver).availability = false
          rw [Store.read_write_ne _ _ _ _ hda, (hfields asg.driver).1]
          exact hav
        · show (((scanOrder g o avail rs).store.write a _).read asg.driver).capacity = _
          rw [Store.read_write_ne _ _ _ _ hda, (hfields asg.driver).2]
          exact hcap
      · rw [List.mem_singleton.mp hnew]
        refine ⟨hmem, ?_, ?_, ?_⟩
        · show (((scanOrder g o avail rs).store.write a _).read a).availability = false
          rw [Store.read_write_self]
        · show (((scanOrder g o avail rs).store.write a _).read a).capacity = _
          rw [Store.read_write_self]
          show ((scanOrder g o avail rs).store.read a).capacity - orderSize o = _
          rw [(hfields a).2, hcapeq]
        · show orderSize o ≤ (σC.read a).capacity
          rw [← hcapeq]
          exact hcapge
    · show (List.map (fun asg => asg.driver) (rs.assignments ++ _)).Nodup
      rw [List.map_append]
      simp only [List.map_cons, List.map_nil]
      rw [List.nodup_append]
      refine ⟨h4, List.nodup_singleton _, ?_⟩
      intro x hx
      simp only [List.mem_singleton]
      intro hc
      subst hc
      obtain ⟨asg, hasg, rfl⟩ := List.mem_map.mp hx
      exact hnoref asg hasg rfl

theorem planInv_init (σC : Store) (avail : List Nat) (rc : Option Cache) :
    PlanInv σC avail ⟨σC, rc, []⟩ := by
  refine ⟨fun _ _ => rfl, fun a _ _ => ⟨rfl, by simp⟩, by simp, by simp⟩

theorem planInv_foldl (g : Graph) (avail : List Nat) (σC : Store) (orders : List Order) :
    ∀ rs, PlanInv σC avail rs →
      PlanInv σC avail (orders.foldl (processOrder g avail) rs) := by
  induction orders with
  | nil => intro rs h; exact h
  | cons o rest ih =>
    intro rs h
    exact ih _ (processOrder_inv g avail σC rs o h)

theorem assignDriversToOrders_eq (σ : Store) (drivers : List Nat) (orders : List Order)
    (g : Graph) (rc : Option Cache) :
    assignDriversToOrders σ drivers orders g rc =
      orders.foldl (processOrder g (cloneDrivers σ drivers).2)
        ⟨(cloneDrivers σ drivers).1, rc, []⟩ := rfl

theorem assignDriversToOrders_inv (σ : Store) (drivers : List Nat) (orders : List Order)
    (g : Graph) (rc : Option Cache) :
    PlanInv (cloneDrivers σ drivers).1 (cloneDrivers σ drivers).2
      (assignDriversToOrders σ drivers orders g rc) := by
  rw [assignDriversToOrders_eq]
  exact planInv_foldl g _ _ orders _ (planInv_init _ _ rc)

/-- C8: assignDriversToOrders never mutates any driver object owned by
the caller: all writes land on the freshly allocated working clones, so
every address below the incoming allocation frontier reads back
unchanged after the call. -/
theorem planner_preserves_caller_drivers (σ : Store) (drivers : List Nat)
    (orders : List Order) (g : Graph) (rc : Option Cache) :
    ∀ x, x < σ.next →
      (assignDriversToOrders σ drivers orders g rc).store.read x = σ.read x := by
  intro x hx
  have hinv := assignDriversToOrders_inv σ drivers orders g rc
  have hnotm : x ∉ (cloneDrivers σ drivers).2 := by
    rw [cloneDrivers_addrs]
    intro hc
    rw [List.mem_range'_1] at hc
    omega
  rw [hinv.1 x hnotm]
  exact cloneDrivers_read_out drivers σ x hx

theorem planner_preserves_caller_drivers_witness :
    (0 : Nat) < (Store.mk (fun _ => ⟨true, 5, none, none⟩) 1).next ∧
    (assignDriversToOrders (Store.mk (fun _ => ⟨true, 5, none, none⟩) 1) [0]
        [⟨"locA", some 1, none⟩] demoGraph none).store.read 0 =
      (Store.mk (fun _ => ⟨true, 5, none, none⟩) 1).read 0 :=
  ⟨by decide,
    planner_preserves_caller_drivers (Store.mk (fun _ => ⟨true, 5, none, none⟩) 1) [0]
      [⟨"locA", some 1, none⟩] demoGraph none 0 (by decide)⟩

/-- C10: every returned assignment record aliases the mutated working
clone, not a selection-time snapshot: reading the referenced driver in
the final store yields availability false and capacity equal to the
clone's original capacity (the caller driver's capacity at clone time)
minus the assigned order's size — the mutation performed after the record
was pushed is visible through the record. No two assignments share a
driver, so the pre-assignment capacity of the assigned clone is its
original capacity. -/
theorem assignment_records_alias_final_driver_state (σ : Store) (drivers : List Nat)
    (orders : List Order) (g : Graph) (rc : Option Cache)
    (hv : ∀ a ∈ drivers, a < σ.next) :
    (∀ asg ∈ (assignDriversToOrders σ drivers orders g rc).assignments,
      ((assignDriversToOrders σ drivers orders g rc).store.read asg.driver).availability
          = false ∧
      ∃ i, ∃ hi : i < drivers.length, asg.driver = σ.next + i ∧
        ((assignDriversToOrders σ drivers orders g rc).store.read asg.driver).capacity =
          (σ.read (drivers.get ⟨i, hi⟩)).capacity - orderSize asg.order) ∧
    ((assignDriversToOrders σ drivers orders g rc).assignments.map
      fun asg => asg.driver).Nodup := by
  have hinv := assignDriversToOrders_inv σ drivers orders g rc
  refine ⟨?_, hinv.2.2.2⟩
  intro asg hasg
  obtain ⟨hm, hav, hcap, _⟩ := hinv.2.2.1 asg hasg
  rw [cloneDrivers_addrs, List.mem_range'_1] at hm
  obtain ⟨hle, hlt⟩ := hm
  have hilt : asg.driver - σ.next < drivers.length := by omega
  refine ⟨hav, asg.driver - σ.next, hilt, by omega, ?_⟩
  rw [hcap]
  have hclone := cloneDrivers_read_clone drivers σ hv (asg.driver - σ.next) (by omega)
  have heq : σ.next + (asg.driver - σ.next) = asg.driver := by omega
  rw [heq] at hclone
  rw [hclone]

theorem assignment_records_alias_final_driver_state_witness :
    (∀ a ∈ [(0 : Nat)], a < (Store.mk (fun _ => ⟨true, 5, none, none⟩) 1).next) ∧
    ((∀ asg ∈ (assignDriversToOrders (Store.mk (fun _ => ⟨true, 5, none, none⟩) 1) [0]
        [⟨"locA", some 1, none⟩] demoGraph none).assignments,
      ((assignDriversToOrders (Store.mk (fun _ => ⟨true, 5, none, none⟩) 1) [0]
          [⟨"locA", some 1, none⟩] demoGraph none).store.read asg.driver).availability
            = false ∧
      ∃ i, ∃ hi : i < [(0 : Nat)].length,
        asg.driver = (Store.mk (fun _ => ⟨true, 5, none, none⟩) 1).next + i ∧
        ((assignDriversToOrders (Store.mk (fun _ => ⟨true, 5, none, none⟩) 1) [0]
            [⟨"locA", some 1, none⟩] demoGraph none).store.read asg.driver).capacity =
          ((Store.mk (fun _ => ⟨true, 5, none, none⟩) 1).read
            ([(0 : Nat)].get ⟨i, hi⟩)).capacity - orderSize asg.order) ∧
    ((assignDriversToOrders (Store.mk (fun _ => ⟨true, 5, none, none⟩) 1) [0]
        [⟨"locA", some 1, none⟩] demoGraph none).assignments.map
      fun asg => asg.driver).Nodup) :=
  ⟨by decide,
    assignment_records_alias_final_driver_state
      (Store.mk (fun _ => ⟨true, 5, none, none⟩) 1) [0]
      [⟨"locA", some 1, none⟩] demoGraph none (by decide)⟩

theorem filter_by_driver_of_nodup {l : List Assignment}
    (h : (l.map fun asg => asg.driver).Nodup) (a : Nat) :
    (l.filter fun asg => asg.driver == a) = [] ∨
    ∃ asg, (l.filter fun asg => asg.driver == a) = [asg] ∧ asg ∈ l ∧ asg.driver = a := by
  induction l with
  | nil => exact Or.inl rfl
  | cons x rest ih =>
    simp only [List.map_cons, List.nodup_cons] at h
    obtain ⟨hx, hrest⟩ := h
    by_cases hxa : x.driver = a
    · right
      refine ⟨x, ?_, List.mem_cons_self _ _, hxa⟩
      rw [List.filter_cons_of_pos (by simpa using hxa)]
      have hempty : (rest.filter fun asg => asg.driver == a) = [] := by
        rw [List.filter_eq_nil]
        intro y hy
        simp only [beq_iff_eq]
        intro hya
        exact hx (List.mem_map.mpr ⟨y, hy, by rw [hya, hxa]⟩)
      rw [hempty]
    · rw [List.filter_cons_of_neg (by simpa using hxa)]
      rcases ih hrest with hnil | ⟨asg, heq, hm, hd⟩
      · exact Or.inl hnil
      · exact Or.inr ⟨asg, heq, List.mem_cons_of_mem _ hm, hd⟩

/-- C6 counterexample: the claim quantifies over every input, but a
caller driver with negative capacity that receives no assignment already
violates it — the total assigned size 0 exceeds the original capacity -1.
(The upstream validator guarantees positive capacities, which the claim
as stated does not assume.) -/
theorem capacity_respect_fails_for_negative_capacity :
    ¬ ((((assignDriversToOrders (Store.mk (fun _ => ⟨true, -1, none, none⟩) 1) [0] []
          (Graph.mk []) none).assignments.filter
        fun asg => asg.driver == (Store.mk (fun _ => (⟨true, -1, none, none⟩ : Driver)) 1).next + 0).map
        fun asg => orderSize asg.order).sum ≤
      ((Store.mk (fun _ => (⟨true, -1, none, none⟩ : Driver)) 1).read
        ([(0 : Nat)].get ⟨0, by decide⟩)).capacity) := by
  with_unfolding_all decide

/-- C6 (amended): provided every caller driver's original capacity is
non-negative (the boundary validator guarantees positive capacities), the
total size of the orders assigned to any single working driver never
exceeds that driver's original capacity: an assignment is made only when
the remaining capacity is at least the order's size and the remaining
capacity is decremented by the size on each assignment. -/
theorem capacity_respect_nonneg (σ : Store) (drivers : List Nat) (orders : List Order)
    (g : Graph) (rc : Option Cache)
    (hv : ∀ a ∈ drivers, a < σ.next)
    (hcap : ∀ a ∈ drivers, 0 ≤ (σ.read a).capacity) :
    ∀ i, ∀ hi : i < drivers.length,
      (((assignDriversToOrders σ drivers orders g rc).assignments.filter
          fun asg => asg.driver == σ.next + i).map
        fun asg => orderSize asg.order).sum ≤ (σ.read (drivers.get ⟨i, hi⟩)).capacity := by
  intro i hi
  have hinv := assignDriversToOrders_inv σ drivers orders g rc
  have hclone := cloneDrivers_read_clone drivers σ hv i hi
  have hcap0 : 0 ≤ (σ.read (drivers.get ⟨i, hi⟩)).capacity :=
    hcap _ (List.get_mem drivers i hi)
  rcases filter_by_driver_of_nodup hinv.2.2.2 (σ.next + i) with hnil | ⟨asg, heq, hm, hd⟩
  · rw [hnil]
    simpa using hcap0
  · rw [heq]
    obtain ⟨_, _, _, hsz⟩ := hinv.2.2.1 asg hm
    rw [hd, hclone] at hsz
    simpa using hsz

theorem capacity_respect_nonneg_witness :
    ((∀ a ∈ [(0 : Nat)], a < (Store.mk (fun _ => ⟨true, 5, none, none⟩) 1).next) ∧
      (∀ a ∈ [(0 : Nat)],
        0 ≤ ((Store.mk (fun _ => (⟨true, 5, none, none⟩ : Driver)) 1).read a).capacity)) ∧
    (∀ i, ∀ hi : i < [(0 : Nat)].length,
      (((assignDriversToOrders (Store.mk (fun _ => ⟨true, 5, none, none⟩) 1) [0]
            [⟨"locA", some 1, none⟩] demoGraph none).assignments.filter
          fun asg => asg.driver == (Store.mk (fun _ => (⟨true, 5, none, none⟩ : Driver)) 1).next + i).map
        fun asg => orderSize asg.order).sum ≤
      ((Store.mk (fun _ => (⟨true, 5, none, none⟩ : Driver)) 1).read
        ([(0 : Nat)].get ⟨i, hi⟩)).capacity) :=
  ⟨⟨by decide, by with_unfolding_all decide⟩,
    capacity_respect_nonneg (Store.mk (fun _ => ⟨true, 5, none, none⟩) 1) [0]
      [⟨"locA", some 1, none⟩] demoGraph none (by decide) (by with_unfolding_all decide)⟩

theorem processOrder_length (g : Graph) (avail : List Nat) (rs : RunState) (o : Order) :
    (processOrder g avail rs o).assignments.length ≤ rs.assignments.length + 1 := by
  rcases (scanOrder_facts g o avail rs).1 with ⟨hbd, _⟩ | ⟨a, _, hbd, hdist, _, _⟩
  · rw [processOrder_none g avail rs o hbd]
    exact Nat.le_succ _
  · rw [processOrder_some g avail rs o a hbd hdist]
    simp

theorem run_length (g : Graph) (avail : List Nat) (orders : List Order) :
    ∀ rs : RunState,
      (orders.foldl (processOrder g avail) rs).assignments.length ≤
        rs.assignments.length + orders.length := by
  induction orders with
  | nil => intro rs; simp
  | cons o rest ih =>
    intro rs
    calc ((o :: rest).foldl (processOrder g avail) rs).assignments.length
        = (rest.foldl (processOrder g avail) (processOrder g avail rs o)).assignments.length :=
          rfl
      _ ≤ (processOrder g avail rs o).assignments.length + rest.length := ih _
      _ ≤ rs.assignments.length + 1 + rest.length :=
          Nat.add_le_add_right (processOrder_length g avail rs o) _
      _ = rs.assignments.length + (o :: rest).length := by
          simp only [List.length_cons]
          omega

/-- C7: a work item with no feasible driver (none both available and with
sufficient capacity at the time the item is processed), or whose
candidate scan ends with the infinite best distance, produces no
assignment — the assignments list is unchanged by that item — and the
planner is total: it always returns a list with at most one assignment
per work item (possibly shorter than the item list). -/
theorem planner_skips_infeasible_items (g : Graph) (avail : List Nat) (rs : RunState)
    (o : Order) (σ : Store) (drivers : List Nat) (orders : List Order) (rc : Option Cache)
    (h : (∀ a ∈ avail, ¬((rs.store.read a).availability = true ∧
            orderSize o ≤ (rs.store.read a).capacity)) ∨
         (scanOrder g o avail rs).bestDistance = ⊤) :
    (processOrder g avail rs o).assignments = rs.assignments ∧
    (assignDriversToOrders σ drivers orders g rc).assignments.length ≤ orders.length := by
  constructor
  · rcases (scanOrder_facts g o avail rs).1 with ⟨hbd, _⟩ | ⟨a, hmem, hbd, hdist, hav, hcap⟩
    · rw [processOrder_none g avail rs o hbd]
    · rcases h with hinf | htop
      · exact absurd ⟨hav, hcap⟩ (hinf a hmem)
      · exact absurd htop hdist
  · rw [assignDriversToOrders_eq]
    have := run_length g (cloneDrivers σ drivers).2 orders ⟨(cloneDrivers σ drivers).1, rc, []⟩
    simpa using this

theorem planner_skips_infeasible_items_witness :
    ((∀ a ∈ ([] : List Nat),
        ¬(((RunState.mk (Store.mk (fun _ => ⟨true, 5, none, none⟩) 1) none []).store.read
              a).availability = true ∧
          orderSize ⟨"locA", some 1, none⟩ ≤
            ((RunState.mk (Store.mk (fun _ => ⟨true, 5, none, none⟩) 1) none []).store.read
              a).capacity)) ∨
      (scanOrder demoGraph ⟨"locA", some 1, none⟩ []
        (RunState.mk (Store.mk (fun _ => ⟨true, 5, none, none⟩) 1) none [])).bestDistance = ⊤) ∧
    ((processOrder demoGraph []
        (RunState.mk (Store.mk (fun _ => ⟨true, 5, none, none⟩) 1) none [])
        ⟨"locA", some 1, none⟩).assignments =
      (RunState.mk (Store.mk (fun _ => ⟨true, 5, none, none⟩) 1) none []).assignments ∧
    (assignDriversToOrders (Store.mk (fun _ => ⟨true, 5, none, none⟩) 1) [0]
        [⟨"locA", some 1, none⟩, ⟨"locB", some 1, none⟩] demoGraph
        none).assignments.length ≤
      [(⟨"locA", some 1, none⟩ : Order), ⟨"locB", some 1, none⟩].length) :=
  ⟨Or.inl (by decide),
    planner_skips_infeasible_items demoGraph []
      (RunState.mk (Store.mk (fun _ => ⟨true, 5, none, none⟩) 1) none [])
      ⟨"locA", some 1, none⟩ (Store.mk (fun _ => ⟨true, 5, none, none⟩) 1) [0]
      [⟨"locA", some 1, none⟩, ⟨"locB", some 1, none⟩] none (Or.inl (by decide))⟩

/-! ## Verification of the MinHeap invariant (C5) -/

theorem getD_set_self {α : Type} (l : List α) (i : Nat) (a d : α) (h : i < l.length) :
    (l.set i a).getD i d = a := by
  induction l generalizing i with
  | nil => simp at h
  | cons x rest ih =>
    cases i with
    | zero => rfl
    | succ k =>
      simp only [List.set_cons_succ, List.getD_cons_succ]
      exact ih k (by simpa using h)

theorem getD_set_ne {α : Type} (l : List α) (i j : Nat) (a d : α) (h : j ≠ i) :
    (l.set i a).getD j d = l.getD j d := by
  induction l generalizing i j with
  | nil => simp
  | cons x rest ih =>
    cases i with
    | zero =>
      cases j with
      | zero => exact absurd rfl h
      | succ k => rfl
    | succ m =>
      cases j with
      | zero => rfl
      | succ k =>
        simp only [List.set_cons_succ, List.getD_cons_succ]
        exact ih m k (fun hc => h (by rw [hc]))

theorem getD_append_left {α : Type} (l t : List α) (i : Nat) (d : α) (h : i < l.length) :
    (l ++ t).getD i d = l.getD i d := by
  induction l generalizing i with
  | nil => simp at h
  | cons x rest ih =>
    cases i with
    | zero => rfl
    | succ k =>
      simp only [List.cons_append, List.getD_cons_succ]
      exact ih k (by simpa using h)

theorem getD_append_singleton {α : Type} (l : List α) (e d : α) :
    (l ++ [e]).getD l.length d = e := by
  induction l with
  | nil => rfl
  | cons x rest ih =>
    simpa using ih

theorem getD_dropLast {α : Type} (l : List α) (i : Nat) (d : α) (h : i < l.length - 1) :
    l.dropLast.getD i d = l.getD i d := by
  induction l generalizing i with
  | nil => simp at h
  | cons x rest ih =>
    cases rest with
    | nil => simp at h
    | cons y s =>
      cases i with
      | zero => rfl
      | succ k =>
        show (y :: s).dropLast.getD k d = (y :: s).getD k d
        exact ih k (by simp at h ⊢; omega)

theorem getLastD_eq_getD {α : Type} (l : List α) (d : α) :
    l.getLastD d = l.getD (l.length - 1) d := by
  induction l with
  | nil => rfl
  | cons x rest ih =>
    cases rest with
    | nil => rfl
    | cons y s =>
      show (y :: s).getLastD d = _
      rw [ih]
      rfl

theorem idxGet_idxSet_self (m : IdxMap) (k : Node) (v : Nat) :
    idxGet (idxSet m k v) k = some v := by
  simp [idxGet, idxSet, assocFind]

theorem idxGet_idxSet_ne (m : IdxMap) (k q : Node) (v : Nat) (h : q ≠ k) :
    idxGet (idxSet m k v) q = idxGet m q := by
  simp only [idxGet, idxSet, assocFind]
  rw [if_neg h]
  induction m with
  | nil => rfl
  | cons p rest ih =>
    by_cases hp : p.1 = k
    · rw [List.filter_cons_of_neg (by simpa using hp)]
      rw [ih]
      show _ = if q = p.1 then some p.2 else assocFind q rest
      rw [if_neg (by rw [hp]; exact h)]
    · rw [List.filter_cons_of_pos (by simpa using hp)]
      show (if q = p.1 then some p.2 else assocFind q (rest.filter fun p => p.1 != k)) = _
      show _ = if q = p.1 then some p.2 else assocFind q rest
      by_cases hq : q = p.1
      · rw [if_pos hq, if_pos hq]
      · rw [if_neg hq, if_neg hq]
        exact ih

theorem idxGet_idxDel_self (m : IdxMap) (k : Node) :
    idxGet (idxDel m k) k = none := by
  simp only [idxGet, idxDel]
  induction m with
  | nil => rfl
  | cons p rest ih =>
    by_cases hp : p.1 = k
    · rw [List.filter_cons_of_neg (by simpa using hp)]
      exact ih
    · rw [List.filter_cons_of_pos (by simpa using hp)]
      show (if k = p.1 then some p.2 else assocFind k (rest.filter fun p => p.1 != k)) = none
      rw [if_neg (fun hc => hp hc.symm)]
      exact ih

theorem idxGet_idxDel_ne (m : IdxMap) (k q : Node) (h : q ≠ k) :
    idxGet (idxDel m k) q = idxGet m q := by
  simp only [idxGet, idxDel]
  induction m with
  | nil => rfl
  | cons p rest ih =>
    by_cases hp : p.1 = k
    · rw [List.filter_cons_of_neg (by simpa using hp)]
      rw [ih]
      show _ = if q = p.1 then some p.2 else assocFind q rest
      rw [if_neg (by rw [hp]; exact h)]
    · rw [List.filter_cons_of_pos (by simpa using hp)]
      show (if q = p.1 then some p.2 else assocFind q (rest.filter fun p => p.1 != k)) = _
      show _ = if q = p.1 then some p.2 else assocFind q rest
      by_cases hq : q = p.1
      · rw [if_pos hq, if_pos hq]
      · rw [if_neg hq, if_neg hq]
        exact ih

/-- The binary min-heap ordering: every parent's priority is at most the
priorities of its children at indices 2i+1 and 2i+2. -/
def heapProp (l : List HeapEntry) : Prop :=
  ∀ i j, j < l.length → (j = 2 * i + 1 ∨ j = 2 * i + 2) →
    (l.getD i junkEntry).priority ≤ (l.getD j junkEntry).priority

/-- Accuracy of the nodeIndices Map: every tracked index is in range and
the entry there carries the tracked node. -/
def idxOK (m : MinHeap) : Prop :=
  ∀ n i, idxGet m.nodeIndices n = some i →
    i < m.heap.length ∧ (m.heap.getD i junkEntry).node = n

/-- Combined machine invariant of the MinHeap. -/
def HeapInv (m : MinHeap) : Prop := heapProp m.heap ∧ idxOK m

theorem heapProp_nil : heapProp [] := by
  intro i j hj _
  simp at hj

theorem swap_getD_fst (m : MinHeap) (i j : Nat) (hj : j < m.heap.length) :
    (m.swap i j).heap.getD j junkEntry = m.heap.getD i junkEntry := by
  unfold MinHeap.swap
  exact getD_set_self _ j _ _ (by simpa using hj)

theorem swap_getD_snd (m : MinHeap) (i j : Nat) (hi : i < m.heap.length)
    (hij : i ≠ j) :
    (m.swap i j).heap.getD i junkEntry = m.heap.getD j junkEntry := by
  unfold MinHeap.swap
  rw [getD_set_ne _ _ _ _ _ hij, getD_set_self _ i _ _ hi]

theorem swap_getD_other (m : MinHeap) (i j k : Nat) (hki : k ≠ i) (hkj : k ≠ j) :
    (m.swap i j).heap.getD k junkEntry = m.heap.getD k junkEntry := by
  unfold MinHeap.swap
  rw [getD_set_ne _ _ _ _ _ hkj, getD_set_ne _ _ _ _ _ hki]

theorem swap_idxOK (m : MinHeap) (i j : Nat) (hi : i < m.heap.length)
    (hj : j < m.heap.length) (h : idxOK m) : idxOK (m.swap i j) := by
  intro n k hk
  rw [MinHeap.swap_heap_length]
  by_cases hna : n = (m.heap.getD i junkEntry).node
  · subst hna
    unfold MinHeap.swap at hk
    rw [idxGet_idxSet_self] at hk
    have hkeq : k = j := by simpa using hk.symm
    rw [hkeq]
    refine ⟨hj, ?_⟩
    rw [swap_getD_fst m i j hj]
  · by_cases hnb : n = (m.heap.getD j junkEntry).node
    · subst hnb
      unfold MinHeap.swap at hk
      rw [idxGet_idxSet_ne _ _ _ _ hna, idxGet_idxSet_self] at hk
      have hkeq : k = i := by simpa using hk.symm
      rw [hkeq]
      refine ⟨hi, ?_⟩
      by_cases hij : i = j
      · subst hij
        rw [swap_getD_fst m i i hi]
      · rw [swap_getD_snd m i j hi hij]
    · unfold MinHeap.swap at hk
      rw [idxGet_idxSet_ne _ _ _ _ hna, idxGet_idxSet_ne _ _ _ _ hnb] at hk
      obtain ⟨hlt, hnode⟩ := h n k hk
      have hki : k ≠ i := fun hc => hna (by rw [← hc, hnode])
      have hkj : k ≠ j := fun hc => hnb (by rw [← hc, hnode])
      refine ⟨hlt, ?_⟩
      rw [swap_getD_other m i j k hki hkj]
      exact hnode

/-- Almost-heap before a sift-up from idx: all parent-child pairs hold
except possibly the one whose child is idx, and idx's parent already
dominates idx's children (so that a swap with the parent keeps the
subtree ordered). -/
def heapPropExceptUp (l : List HeapEntry) (idx : Nat) : Prop :=
  (∀ i j, j < l.length → (j = 2 * i + 1 ∨ j = 2 * i + 2) → j ≠ idx →
     (l.getD i junkEntry).priority ≤ (l.getD j junkEntry).priority) ∧
  (∀ j, j < l.length → (j = 2 * idx + 1 ∨ j = 2 * idx + 2) → 0 < idx →
     (l.getD ((idx - 1) / 2) junkEntry).priority ≤ (l.getD j junkEntry).priority)

theorem bubbleUpAux_heapProp : ∀ (fuel : Nat) (m : MinHeap) (idx : Nat),
    idx ≤ fuel → idx < m.heap.length → heapPropExceptUp m.heap idx →
    heapProp (MinHeap.bubbleUpAux fuel m idx).heap := by
  intro fuel
  induction fuel with
  | zero =>
    intro m idx hle _ hE
    have hidx0 : idx = 0 := by omega
    subst hidx0
    intro i j hj hchild
    exact hE.1 i j hj hchild (by omega)
  | succ fuel ih =>
    intro m idx hle hlen hE
    show heapProp (MinHeap.bubbleUpAux (fuel + 1) m idx).heap
    rw [MinHeap.bubbleUpAux]
    by_cases hcond : 0 < idx ∧ m.prio idx < m.prio ((idx - 1) / 2)
    · rw [if_pos hcond]
      obtain ⟨hpos, hlt⟩ := hcond
      set p := (idx - 1) / 2 with hp
      have hpi : p < idx := by omega
      have hplen : p < m.heap.length := by omega
      apply ih _ p (by omega)
      · rw [MinHeap.swap_heap_length]; omega
      · constructor
        · intro i j hj hchild hjp
          rw [MinHeap.swap_heap_length] at hj
          have hij : i = (j - 1) / 2 := by omega
          have hiltj : i < j := by omega
          by_cases hjidx : j = idx
          · have hip : i = p := by omega
            rw [hjidx, hip, swap_getD_fst m idx p hplen,
              swap_getD_snd m idx p hlen (by omega)]
            exact le_of_lt hlt
          · have hvj : (m.swap idx p).heap.getD j junkEntry = m.heap.getD j junkEntry :=
              swap_getD_other m idx p j hjidx hjp
            rw [hvj]
            by_cases hiidx : i = idx
            · rw [hiidx, swap_getD_snd m idx p hlen (by omega)]
              exact hE.2 j hj (by omega) hpos
            · by_cases hipp : i = p
              · rw [hipp, swap_getD_fst m idx p hplen]
                exact le_trans (le_of_lt hlt) (hE.1 p j hj (by omega) hjidx)
              · rw [swap_getD_other m idx p i hiidx hipp]
                exact hE.1 i j hj hchild hjidx
        · intro j hj hchild hppos
          rw [MinHeap.swap_heap_length] at hj
          have hpp : (p - 1) / 2 < p := by omega
          have hppne1 : (p - 1) / 2 ≠ idx := by omega
          have hppne2 : (p - 1) / 2 ≠ p := by omega
          rw [swap_getD_other m idx p _ hppne1 hppne2]
          have hpchild : p = 2 * ((p - 1) / 2) + 1 ∨ p = 2 * ((p - 1) / 2) + 2 := by omega
          have hbase : (m.heap.getD ((p - 1) / 2) junkEntry).priority ≤
              (m.heap.getD p junkEntry).priority :=
            hE.1 _ p hplen hpchild (by omega)
          by_cases hjidx : j = idx
          · subst hjidx
            rw [swap_getD_snd m j p hlen (by omega)]
            exact hbase
          · have hjp : j ≠ p := by omega
            rw [swap_getD_other m idx p j hjidx hjp]
            exact le_trans hbase (hE.1 p j hj hchild hjidx)
    · rw [if_neg hcond]
      intro i j hj hchild
      by_cases hjidx : j = idx
      · subst hjidx
        have hpos : 0 < j := by omega
        have hip : i = (j - 1) / 2 := by omega
        subst hip
        have := fun hc => hcond ⟨hpos, hc⟩
        exact not_lt.mp this
      · exact hE.1 i j hj hchild hjidx

theorem bubbleUpAux_idxOK : ∀ (fuel : Nat) (m : MinHeap) (idx : Nat),
    idx < m.heap.length → idxOK m → idxOK (MinHeap.bubbleUpAux fuel m idx) := by
  intro fuel
  induction fuel with
  | zero => intro m idx _ h; exact h
  | succ fuel ih =>
    intro m idx hlen h
    rw [MinHeap.bubbleUpAux]
    by_cases hcond : 0 < idx ∧ m.prio idx < m.prio ((idx - 1) / 2)
    · rw [if_pos hcond]
      have hplen : (idx - 1) / 2 < m.heap.length := by omega
      apply ih
      · rw [MinHeap.swap_heap_length]; omega
      · exact swap_idxOK m idx _ hlen hplen h
    · rw [if_neg hcond]
      exact h

theorem smallestIdx_self_spec (m : MinHeap) (idx : Nat)
    (h : m.smallestIdx idx = idx) :
    ∀ j, j < m.heap.length → (j = 2 * idx + 1 ∨ j = 2 * idx + 2) →
      m.prio idx ≤ m.prio j := by
  simp only [MinHeap.smallestIdx] at h
  by_cases c1 : 2 * idx + 1 < m.heap.length ∧ m.prio (2 * idx + 1) < m.prio idx
  · rw [if_pos c1] at h
    split at h <;> omega
  · rw [if_neg c1] at h
    by_cases c2 : 2 * idx + 2 < m.heap.length ∧ m.prio (2 * idx + 2) < m.prio idx
    · rw [if_pos c2] at h; omega
    · intro j hj hchild
      rcases hchild with hc | hc
      · subst hc
        exact not_lt.mp fun hlt => c1 ⟨hj, hlt⟩
      · subst hc
        exact not_lt.mp fun hlt => c2 ⟨hj, hlt⟩

theorem smallestIdx_ne_spec (m : MinHeap) (idx s : Nat)
    (hs : m.smallestIdx idx = s) (h : s ≠ idx) :
    (s = 2 * idx + 1 ∨ s = 2 * idx + 2) ∧ s < m.heap.length ∧
    m.prio s < m.prio idx ∧
    ∀ j, j < m.heap.length → (j = 2 * idx + 1 ∨ j = 2 * idx + 2) →
      m.prio s ≤ m.prio j := by
  simp only [MinHeap.smallestIdx] at hs
  by_cases c1 : 2 * idx + 1 < m.heap.length ∧ m.prio (2 * idx + 1) < m.prio idx
  · rw [if_pos c1] at hs
    by_cases c2 : 2 * idx + 2 < m.heap.length ∧
        m.prio (2 * idx + 2) < m.prio (2 * idx + 1)
    · rw [if_pos c2] at hs
      subst hs
      refine ⟨Or.inr rfl, c2.1, lt_trans c2.2 c1.2, ?_⟩
      intro j hj hchild
      rcases hchild with hc | hc
      · subst hc; exact le_of_lt c2.2
      · subst hc; exact le_refl _
    · rw [if_neg c2] at hs
      subst hs
      refine ⟨Or.inl rfl, c1.1, c1.2, ?_⟩
      intro j hj hchild
      rcases hchild with hc | hc
      · subst hc; exact le_refl _
      · subst hc
        exact not_lt.mp fun hlt => c2 ⟨hj, hlt⟩
  · rw [if_neg c1] at hs
    by_cases c2 : 2 * idx + 2 < m.heap.length ∧ m.prio (2 * idx + 2) < m.prio idx
    · rw [if_pos c2] at hs
      subst hs
      refine ⟨Or.inr rfl, c2.1, c2.2, ?_⟩
      intro j hj hchild
      rcases hchild with hc | hc
      · subst hc
        exact le_trans (le_of_lt c2.2) (not_lt.mp fun hlt => c1 ⟨hj, hlt⟩)
      · subst hc; exact le_refl _
    · rw [if_neg c2] at hs
      exact absurd hs.symm h

/-- Almost-heap before a sift-down from idx: all parent-child pairs hold
except possibly those whose parent is idx, and idx's parent (when it
exists) already dominates idx's children (so that a swap with a child
keeps the link to the grandparent ordered). -/
def heapPropExceptDown (l : List HeapEntry) (idx : Nat) : Prop :=
  (∀ i j, j < l.length → (j = 2 * i + 1 ∨ j = 2 * i + 2) → i ≠ idx →
     (l.getD i junkEntry).priority ≤ (l.getD j junkEntry).priority) ∧
  (∀ j, j < l.length → (j = 2 * idx + 1 ∨ j = 2 * idx + 2) → 0 < idx →
     (l.getD ((idx - 1) / 2) junkEntry).priority ≤ (l.getD j junkEntry).priority)

theorem bubbleDownAux_heapProp : ∀ (fuel : Nat) (m : MinHeap) (idx : Nat),
    m.heap.length ≤ idx + fuel → heapPropExceptDown m.heap idx →
    heapProp (MinHeap.bubbleDownAux fuel m idx).heap := by
  intro fuel
  induction fuel with
  | zero =>
    intro m idx hfuel hE
    show heapProp m.heap
    intro i j hj hchild
    exact hE.1 i j hj hchild (by omega)
  | succ fuel ih =>
    intro m idx hfuel hE
    simp only [MinHeap.bubbleDownAux]
    by_cases hne : m.smallestIdx idx = idx
    · rw [if_neg (not_not_intro hne)]
      intro i j hj hchild
      by_cases hii : i = idx
      · rw [hii]
        exact smallestIdx_self_spec m idx hne j hj (by omega)
      · exact hE.1 i j hj hchild hii
    · rw [if_pos hne]
      obtain ⟨hchild_s, hslen, hslt, hsmin⟩ :=
        smallestIdx_ne_spec m idx (m.smallestIdx idx) rfl hne
      set s := m.smallestIdx idx with hsdef
      have hidxs : idx < s := by omega
      have hidxlen : idx < m.heap.length := by omega
      apply ih
      · rw [MinHeap.swap_heap_length]; omega
      · constructor
        · intro i j hj hchild his
          rw [MinHeap.swap_heap_length] at hj
          by_cases hii : i = idx
          · by_cases hjs : j = s
            · rw [hii, hjs, swap_getD_snd m idx s hidxlen (by omega),
                swap_getD_fst m idx s hslen]
              exact le_of_lt hslt
            · have hji : j ≠ idx := by omega
              rw [hii, swap_getD_snd m idx s hidxlen (by omega),
                swap_getD_other m idx s j hji hjs]
              exact hsmin j hj (by omega)
          · rw [swap_getD_other m idx s i hii his]
            by_cases hji : j = idx
            · have hip : i = (idx - 1) / 2 := by omega
              have hpos : 0 < idx := by omega
              rw [hji, swap_getD_snd m idx s hidxlen (by omega), hip]
              exact hE.2 s hslen (by omega) hpos
            · by_cases hjs : j = s
              · exact absurd (by omega : i = idx) hii
              · rw [swap_getD_other m idx s j hji hjs]
                exact hE.1 i j hj hchild hii
        · intro j hj hchild hspos
          rw [MinHeap.swap_heap_length] at hj
          have hps : (s - 1) / 2 = idx := by omega
          have hji : j ≠ idx := by omega
          have hjs : j ≠ s := by omega
          rw [hps, swap_getD_snd m idx s hidxlen (by omega),
            swap_getD_other m idx s j hji hjs]
          exact hE.1 s j hj hchild (by omega)

theorem bubbleDownAux_idxOK : ∀ (fuel : Nat) (m : MinHeap) (idx : Nat),
    idxOK m → idxOK (MinHeap.bubbleDownAux fuel m idx) := by
  intro fuel
  induction fuel with
  | zero => intro m idx h; exact h
  | succ fuel ih =>
    intro m idx h
    simp only [MinHeap.bubbleDownAux]
    by_cases hne : m.smallestIdx idx = idx
    · rw [if_neg (not_not_intro hne)]
      exact h
    · rw [if_pos hne]
      obtain ⟨hchild_s, hslen, _, _⟩ :=
        smallestIdx_ne_spec m idx (m.smallestIdx idx) rfl hne
      exact ih _ _ (swap_idxOK m idx _ (by omega) hslen h)

theorem empty_HeapInv : HeapInv MinHeap.empty := by
  constructor
  · intro i j hj _
    simp [MinHeap.empty] at hj
  · intro n i hget
    simp [MinHeap.empty, idxGet, assocFind] at hget

theorem insert_HeapInv (m : MinHeap) (node : Node) (priority : ℚ)
    (h : HeapInv m) : HeapInv (m.insert node priority) := by
  obtain ⟨hp, hidx⟩ := h
  have hL : (m.heap ++ [HeapEntry.mk node priority]).length - 1 = m.heap.length := by
    simp
  show HeapInv (MinHeap.bubbleUpAux
    ((m.heap ++ [HeapEntry.mk node priority]).length - 1)
    (MinHeap.mk (m.heap ++ [HeapEntry.mk node priority])
      (idxSet m.nodeIndices node ((m.heap ++ [HeapEntry.mk node priority]).length - 1)))
    ((m.heap ++ [HeapEntry.mk node priority]).length - 1))
  rw [hL]
  have hlen : m.heap.length <
      (MinHeap.mk (m.heap ++ [HeapEntry.mk node priority])
        (idxSet m.nodeIndices node m.heap.length)).heap.length := by
    simp
  constructor
  · apply bubbleUpAux_heapProp _ _ _ (le_refl _) hlen
    constructor
    · intro i j hj hchild hjne
      simp only [List.length_append, List.length_cons, List.length_nil] at hj
      have hjlt : j < m.heap.length := by omega
      have hilt : i < m.heap.length := by omega
      show ((m.heap ++ [HeapEntry.mk node priority]).getD i junkEntry).priority ≤
        ((m.heap ++ [HeapEntry.mk node priority]).getD j junkEntry).priority
      rw [getD_append_left _ _ i _ hilt, getD_append_left _ _ j _ hjlt]
      exact hp i j hjlt hchild
    · intro j hj hchild _
      simp only [List.length_append, List.length_cons, List.length_nil] at hj
      exact absurd hj (by omega)
  · apply bubbleUpAux_idxOK _ _ _ hlen
    intro n i hget
    change idxGet (idxSet m.nodeIndices node m.heap.length) n = some i at hget
    by_cases hn : n = node
    · rw [hn, idxGet_idxSet_self] at hget
      have hi : i = m.heap.length := by
        exact (Option.some_injective _ hget).symm
      constructor
      · simp [hi]
      · show ((m.heap ++ [HeapEntry.mk node priority]).getD i junkEntry).node = n
        rw [hi, getD_append_singleton]
        exact hn.symm
    · rw [idxGet_idxSet_ne _ _ _ _ hn] at hget
      obtain ⟨h1, h2⟩ := hidx n i hget
      constructor
      · simp; omega
      · show ((m.heap ++ [HeapEntry.mk node priority]).getD i junkEntry).node = n
        rw [getD_append_left _ _ _ _ h1]
        exact h2

theorem extractMin_HeapInv (m : MinHeap) (h : HeapInv m) :
    HeapInv (m.extractMin).2 := by
  obtain ⟨hp, hidx⟩ := h
  simp only [MinHeap.extractMin]
  by_cases h0 : m.heap.length = 0
  · rw [if_pos h0]
    exact ⟨hp, hidx⟩
  · rw [if_neg h0]
    by_cases h1 : m.heap.length = 1
    · rw [if_pos h1]
      dsimp only
      constructor
      · intro i j hj _
        simp at hj
      · intro n i hget
        change idxGet (idxDel m.nodeIndices (m.heap.getD 0 junkEntry).node) n
          = some i at hget
        by_cases hn : n = (m.heap.getD 0 junkEntry).node
        · rw [hn, idxGet_idxDel_self] at hget
          exact absurd hget (by simp)
        · rw [idxGet_idxDel_ne _ _ _ hn] at hget
          obtain ⟨h1', h2'⟩ := hidx n i hget
          have hi0 : i = 0 := by omega
          rw [hi0] at h2'
          exact absurd h2'.symm hn
    · rw [if_neg h1]
      dsimp only
      have h2le : 2 ≤ m.heap.length := by omega
      have hdl : (m.heap.dropLast.set 0 (m.heap.getLastD junkEntry)).length
          = m.heap.length - 1 := by
        simp
      constructor
      · apply bubbleDownAux_heapProp _ _ _ (by omega)
        constructor
        · intro i j hj hchild hine
          rw [hdl] at hj
          have hjne : j ≠ 0 := by omega
          have hjlt : j < m.heap.length - 1 := hj
          have hilt : i < m.heap.length - 1 := by omega
          rw [getD_set_ne _ _ _ _ _ hjne, getD_set_ne _ _ _ _ _ hine,
            getD_dropLast _ _ _ hjlt, getD_dropLast _ _ _ hilt]
          exact hp i j (by omega) hchild
        · intro j hj hchild hpos
          exact absurd hpos (lt_irrefl 0)
      · apply bubbleDownAux_idxOK
        intro n i hget
        change idxGet (idxDel (idxSet m.nodeIndices (m.heap.getLastD junkEntry).node 0)
          (m.heap.getD 0 junkEntry).node) n = some i at hget
        by_cases hn0 : n = (m.heap.getD 0 junkEntry).node
        · rw [hn0, idxGet_idxDel_self] at hget
          exact absurd hget (by simp)
        · rw [idxGet_idxDel_ne _ _ _ hn0] at hget
          by_cases hnl : n = (m.heap.getLastD junkEntry).node
          · rw [hnl, idxGet_idxSet_self] at hget
            have hi : i = 0 := (Option.some_injective _ hget).symm
            constructor
            · rw [hdl]; omega
            · show ((m.heap.dropLast.set 0 (m.heap.getLastD junkEntry)).getD i
                junkEntry).node = n
              rw [hi, getD_set_self _ _ _ _ (by simp; omega)]
              exact hnl.symm
          · rw [idxGet_idxSet_ne _ _ _ _ hnl] at hget
            obtain ⟨h1', h2'⟩ := hidx n i hget
            have hine : i ≠ 0 := by
              intro hi0
              rw [hi0] at h2'
              exact hn0 h2'.symm
            have hilast : i ≠ m.heap.length - 1 := by
              intro hil
              rw [hil] at h2'
              rw [getLastD_eq_getD] at hnl
              exact hnl h2'.symm
            constructor
            · rw [hdl]; omega
            · show ((m.heap.dropLast.set 0 (m.heap.getLastD junkEntry)).getD i
                junkEntry).node = n
              rw [getD_set_ne _ _ _ _ _ hine, getD_dropLast _ _ _ (by omega)]
              exact h2'

theorem decreaseKey_HeapInv (m : MinHeap) (node : Node) (p : ℚ)
    (h : HeapInv m) : HeapInv (m.decreaseKey node p) := by
  obtain ⟨hp, hidx⟩ := h
  simp only [MinHeap.decreaseKey]
  cases hg : idxGet m.nodeIndices node with
  | none => exact insert_HeapInv m node p ⟨hp, hidx⟩
  | some idx =>
    dsimp only
    by_cases hlt : p < (m.heap.getD idx junkEntry).priority
    · rw [if_pos hlt]
      obtain ⟨hilen, hinode⟩ := hidx node idx hg
      have hlen : idx < (MinHeap.mk
          (m.heap.set idx ⟨(m.heap.getD idx junkEntry).node, p⟩)
          m.nodeIndices).heap.length := by
        simp [hilen]
      constructor
      · apply bubbleUpAux_heapProp _ _ _ (le_refl _) hlen
        constructor
        · intro i j hj hchild hjne
          show ((m.heap.set idx ⟨(m.heap.getD idx junkEntry).node, p⟩).getD i
              junkEntry).priority ≤
            ((m.heap.set idx ⟨(m.heap.getD idx junkEntry).node, p⟩).getD j
              junkEntry).priority
          have hjlen : j < m.heap.length := by
            simpa using hj
          rw [getD_set_ne _ _ _ _ _ hjne]
          by_cases hie : i = idx
          · rw [hie, getD_set_self _ _ _ _ hilen]
            exact le_trans (le_of_lt hlt) (hp idx j hjlen (by omega))
          · rw [getD_set_ne _ _ _ _ _ hie]
            exact hp i j hjlen hchild
        · intro j hj hchild hpos
          show ((m.heap.set idx ⟨(m.heap.getD idx junkEntry).node, p⟩).getD
              ((idx - 1) / 2) junkEntry).priority ≤
            ((m.heap.set idx ⟨(m.heap.getD idx junkEntry).node, p⟩).getD j
              junkEntry).priority
          have hjlen : j < m.heap.length := by
            simpa using hj
          rw [getD_set_ne _ _ _ _ _ (by omega : (idx - 1) / 2 ≠ idx),
            getD_set_ne _ _ _ _ _ (by omega : j ≠ idx)]
          exact le_trans (hp _ idx hilen (by omega)) (hp idx j hjlen hchild)
      · apply bubbleUpAux_idxOK _ _ _ hlen
        intro n i hget
        change idxGet m.nodeIndices n = some i at hget
        obtain ⟨h1', h2'⟩ := hidx n i hget
        constructor
        · simpa using h1'
        · show ((m.heap.set idx ⟨(m.heap.getD idx junkEntry).node, p⟩).getD i
            junkEntry).node = n
          by_cases hie : i = idx
          · rw [hie, getD_set_self _ _ _ _ hilen]
            rw [hie] at h2'
            exact h2'
          · rw [getD_set_ne _ _ _ _ _ hie]
            exact h2'
    · rw [if_neg hlt]
      exact insert_HeapInv m node p ⟨hp, hidx⟩

/-- The three public mutating operations of MinHeap. -/
inductive HeapOp where
  | insertOp (node : Node) (priority : ℚ)
  | decreaseKeyOp (node : Node) (priority : ℚ)
  | extractMinOp
deriving DecidableEq

def applyHeapOp (m : MinHeap) : HeapOp → MinHeap
  | .insertOp n p => m.insert n p
  | .decreaseKeyOp n p => m.decreaseKey n p
  | .extractMinOp => (m.extractMin).2

/-- Run a sequence of operations on a freshly constructed MinHeap. -/
def runHeapOps (ops : List HeapOp) : MinHeap :=
  ops.foldl applyHeapOp MinHeap.empty

theorem applyHeapOp_HeapInv (m : MinHeap) (op : HeapOp) (h : HeapInv m) :
    HeapInv (applyHeapOp m op) := by
  cases op with
  | insertOp n p => exact insert_HeapInv m n p h
  | decreaseKeyOp n p => exact decreaseKey_HeapInv m n p h
  | extractMinOp => exact extractMin_HeapInv m h

theorem runHeapOps_HeapInv (ops : List HeapOp) : HeapInv (runHeapOps ops) := by
  unfold runHeapOps
  have hgen : ∀ (l : List HeapOp) (m : MinHeap), HeapInv m →
      HeapInv (l.foldl applyHeapOp m) := by
    intro l
    induction l with
    | nil => intro m h; exact h
    | cons op rest ih =>
      intro m h
      exact ih _ (applyHeapOp_HeapInv m op h)
  exact hgen ops MinHeap.empty empty_HeapInv

/-- C5: after any sequence of MinHeap operations insert(node, priority),
decreaseKey(node, newPriority) and extractMin(), every entry of the
internal heap array has priority less than or equal to the priorities of
both of its children at array indices 2i+1 and 2i+2. -/
theorem min_heap_invariant_after_any_op_sequence (ops : List HeapOp) :
    heapProp (runHeapOps ops).heap :=
  (runHeapOps_HeapInv ops).1

/-! ## Multiset-level facts about the heap operations, towards C1. -/

theorem getD_mem {α : Type} (l : List α) (i : Nat) (d : α) (h : i < l.length) :
    l.getD i d ∈ l := by
  induction l generalizing i with
  | nil => simp at h
  | cons x t ih =>
    cases i with
    | zero => exact List.mem_cons_self x t
    | succ k => exact List.mem_cons_of_mem x (ih k (by simpa using h))

theorem mem_iff_getD {α : Type} (l : List α) (e d : α) :
    e ∈ l ↔ ∃ i, i < l.length ∧ l.getD i d = e := by
  constructor
  · intro h
    induction l with
    | nil => simp at h
    | cons x t ih =>
      rcases List.mem_cons.mp h with h1 | h2
      · exact ⟨0, by simp, h1.symm⟩
      · obtain ⟨i, hi, he⟩ := ih h2
        exact ⟨i + 1, by simpa using hi, he⟩
  · rintro ⟨i, hi, rfl⟩
    exact getD_mem l i d hi

theorem set_getD_self {α : Type} (l : List α) (i : Nat) (d : α) (h : i < l.length) :
    l.set i (l.getD i d) = l := by
  induction l generalizing i with
  | nil => rfl
  | cons x t ih =>
    cases i with
    | zero => rfl
    | succ k =>
      show x :: t.set k (t.getD k d) = x :: t
      rw [ih k (by simpa using h)]

theorem cons_getD_set_perm {α : Type} (l : List α) (i : Nat) (x d : α)
    (h : i < l.length) : List.Perm (l.getD i d :: l.set i x) (x :: l) := by
  induction l generalizing i with
  | nil => simp at h
  | cons y t ih =>
    cases i with
    | zero => exact List.Perm.swap x y t
    | succ k =>
      have hk : k < t.length := by simpa using h
      show List.Perm (t.getD k d :: y :: t.set k x) (x :: y :: t)
      exact ((List.Perm.swap y (t.getD k d) (t.set k x)).trans
        (List.Perm.cons y (ih k hk))).trans (List.Perm.swap x y t)

theorem swap_perm (m : MinHeap) (i j : Nat) (hi : i < m.heap.length)
    (hj : j < m.heap.length) : List.Perm (m.swap i j).heap m.heap := by
  show List.Perm
    ((m.heap.set i (m.heap.getD j junkEntry)).set j (m.heap.getD i junkEntry)) m.heap
  by_cases hij : i = j
  · subst hij
    rw [List.set_set, set_getD_self m.heap i junkEntry hi]
  · have h1 : List.Perm
        ((m.heap.set i (m.heap.getD j junkEntry)).getD j junkEntry ::
          (m.heap.set i (m.heap.getD j junkEntry)).set j (m.heap.getD i junkEntry))
        (m.heap.getD i junkEntry :: m.heap.set i (m.heap.getD j junkEntry)) :=
      cons_getD_set_perm _ j _ _ (by simpa using hj)
    rw [getD_set_ne _ _ _ _ _ (fun hc => hij hc.symm)] at h1
    have h2 : List.Perm (m.heap.getD i junkEntry :: m.heap.set i (m.heap.getD j junkEntry))
        (m.heap.getD j junkEntry :: m.heap) :=
      cons_getD_set_perm _ i _ _ hi
    exact (h1.trans h2).cons_inv

theorem bubbleUpAux_perm : ∀ (fuel : Nat) (m : MinHeap) (idx : Nat),
    idx < m.heap.length → List.Perm (MinHeap.bubbleUpAux fuel m idx).heap m.heap := by
  intro fuel
  induction fuel with
  | zero => intro m idx _; exact List.Perm.refl _
  | succ fuel ih =>
    intro m idx hlen
    rw [MinHeap.bubbleUpAux]
    by_cases hcond : 0 < idx ∧ m.prio idx < m.prio ((idx - 1) / 2)
    · rw [if_pos hcond]
      have hplen : (idx - 1) / 2 < m.heap.length := by omega
      exact (ih _ _ (by rw [MinHeap.swap_heap_length]; omega)).trans
        (swap_perm m idx _ hlen hplen)
    · rw [if_neg hcond]

theorem bubbleDownAux_perm : ∀ (fuel : Nat) (m : MinHeap) (idx : Nat),
    List.Perm (MinHeap.bubbleDownAux fuel m idx).heap m.heap := by
  intro fuel
  induction fuel with
  | zero => intro m idx; exact List.Perm.refl _
  | succ fuel ih =>
    intro m idx
    simp only [MinHeap.bubbleDownAux]
    by_cases hne : m.smallestIdx idx = idx
    · rw [if_neg (not_not_intro hne)]
    · rw [if_pos hne]
      obtain ⟨hchild_s, hslen, _, _⟩ :=
        smallestIdx_ne_spec m idx (m.smallestIdx idx) rfl hne
      exact (ih _ _).trans (swap_perm m idx _ (by omega) hslen)

theorem insert_perm (m : MinHeap) (node : Node) (priority : ℚ) :
    List.Perm (m.insert node priority).heap
      (m.heap ++ [HeapEntry.mk node priority]) := by
  have hL : (m.heap ++ [HeapEntry.mk node priority]).length - 1 = m.heap.length := by
    simp
  show List.Perm (MinHeap.bubbleUpAux
    ((m.heap ++ [HeapEntry.mk node priority]).length - 1)
    (MinHeap.mk (m.heap ++ [HeapEntry.mk node priority])
      (idxSet m.nodeIndices node ((m.heap ++ [HeapEntry.mk node priority]).length - 1)))
    ((m.heap ++ [HeapEntry.mk node priority]).length - 1)).heap
    (m.heap ++ [HeapEntry.mk node priority])
  rw [hL]
  exact bubbleUpAux_perm _ _ _ (by simp)

theorem extractMin_fst (m : MinHeap) (h : 0 < m.heap.length) :
    (m.extractMin).1 = some (m.heap.getD 0 junkEntry) := by
  simp only [MinHeap.extractMin]
  rw [if_neg (by omega)]
  by_cases h1 : m.heap.length = 1
  · rw [if_pos h1]
  · rw [if_neg h1]

theorem extractMin_some_spec (m : MinHeap) (e : HeapEntry) (m' : MinHeap)
    (h : m.extractMin = (some e, m')) :
    e = m.heap.getD 0 junkEntry ∧ List.Perm m.heap (e :: m'.heap) := by
  simp only [MinHeap.extractMin] at h
  by_cases h0 : m.heap.length = 0
  · rw [if_pos h0] at h
    exact absurd (congrArg Prod.fst h) (by simp)
  · rw [if_neg h0] at h
    by_cases h1 : m.heap.length = 1
    · rw [if_pos h1] at h
      have he : e = m.heap.getD 0 junkEntry := by
        have := congrArg Prod.fst h
        simp only at this
        exact (Option.some_injective _ this.symm)
      have hm' : m'.heap = [] := by
        have := congrArg Prod.snd h
        simp only at this
        rw [← this]
      refine ⟨he, ?_⟩
      rw [hm', he]
      match m.heap, h1 with
      | [x], _ => exact List.Perm.refl _
    · rw [if_neg h1] at h
      have he : e = m.heap.getD 0 junkEntry := by
        have := congrArg Prod.fst h
        simp only at this
        exact (Option.some_injective _ this.symm)
      have hm' : m' = (MinHeap.mk
          (m.heap.dropLast.set 0 (m.heap.getLastD junkEntry))
          (idxDel (idxSet m.nodeIndices (m.heap.getLastD junkEntry).node 0)
            (m.heap.getD 0 junkEntry).node)).bubbleDown 0 := by
        have := congrArg Prod.snd h
        simp only at this
        exact this.symm
      refine ⟨he, ?_⟩
      have hperm1 : List.Perm m'.heap
          (m.heap.dropLast.set 0 (m.heap.getLastD junkEntry)) := by
        rw [hm']
        exact bubbleDownAux_perm _ _ _
      have hne : m.heap ≠ [] := by
        intro hc
        rw [hc] at h0
        exact h0 rfl
      have hsplit : m.heap.dropLast ++ [m.heap.getLastD junkEntry] = m.heap := by
        rw [getLastD_eq_getD]
        conv_rhs => rw [← List.dropLast_append_getLast hne]
        congr 1
        rw [List.getLast_eq_getElem]
        simp only [List.getD_eq_getElem?_getD]
        rw [List.getElem?_eq_getElem (by simp; omega)]
        simp
      have hperm2 : List.Perm m.heap
          (m.heap.getLastD junkEntry :: m.heap.dropLast) := by
        conv_lhs => rw [← hsplit]
        exact List.perm_append_singleton _ _
      have hperm3 : List.Perm
          (m.heap.getD 0 junkEntry :: m.heap.dropLast.set 0 (m.heap.getLastD junkEntry))
          (m.heap.getLastD junkEntry :: m.heap.dropLast) := by
        have h0' : (0 : Nat) < m.heap.dropLast.length := by
          simp only [List.length_dropLast]; omega
        have := cons_getD_set_perm m.heap.dropLast 0 (m.heap.getLastD junkEntry)
          junkEntry h0'
        rwa [getD_dropLast _ _ _ (by omega)] at this
      rw [he]
      exact (hperm2.trans hperm3.symm).trans (List.Perm.cons _ hperm1.symm)

theorem root_min (l : List HeapEntry) (hp : heapProp l) :
    ∀ e ∈ l, (l.getD 0 junkEntry).priority ≤ e.priority := by
  have key : ∀ k, k < l.length →
      (l.getD 0 junkEntry).priority ≤ (l.getD k junkEntry).priority := by
    intro k
    induction k using Nat.strong_induction_on with
    | _ k ih =>
      intro hk
      cases Nat.eq_zero_or_pos k with
      | inl h0 => rw [h0]
      | inr hpos =>
        have hparent : (k - 1) / 2 < k := by omega
        exact le_trans (ih _ hparent (by omega)) (hp ((k - 1) / 2) k hk (by omega))
  intro e he
  obtain ⟨i, hi, rfl⟩ := (mem_iff_getD l e junkEntry).mp he
  exact key i hi

theorem decreaseKey_heap_cases (m : MinHeap) (v : Node) (q : ℚ) (hOK : idxOK m) :
    List.Perm (m.decreaseKey v q).heap (m.heap ++ [HeapEntry.mk v q]) ∨
    ∃ idx, idx < m.heap.length ∧ (m.heap.getD idx junkEntry).node = v ∧
      List.Perm (m.decreaseKey v q).heap (m.heap.set idx (HeapEntry.mk v q)) := by
  simp only [MinHeap.decreaseKey]
  cases hg : idxGet m.nodeIndices v with
  | none => exact Or.inl (insert_perm m v q)
  | some idx =>
    dsimp only
    obtain ⟨hilen, hinode⟩ := hOK v idx hg
    by_cases hlt : q < (m.heap.getD idx junkEntry).priority
    · rw [if_pos hlt]
      right
      refine ⟨idx, hilen, hinode, ?_⟩
      have hperm : List.Perm (MinHeap.bubbleUpAux idx
          (MinHeap.mk (m.heap.set idx ⟨(m.heap.getD idx junkEntry).node, q⟩)
            m.nodeIndices) idx).heap
          (m.heap.set idx ⟨(m.heap.getD idx junkEntry).node, q⟩) :=
        bubbleUpAux_perm _ _ _ (by simpa using hilen)
      rw [← hinode]
      exact hperm
    · rw [if_neg hlt]
      exact Or.inl (insert_perm m v q)

/-- A walk in the graph from s to v, recorded as its node list
[s, ..., v] and the sum of its edge weights. An edge u to v of weight w
is an entry (v, w) of the edge object graph[u]. -/
inductive IsPathList (g : Graph) (s : Node) : Node → List Node → ℚ → Prop
  | single : IsPathList g s s [s] 0
  | snoc {u v : Node} {ns : List Node} {c w : ℚ} {edges : List (Node × ℚ)}
      (h : IsPathList g s u ns c) (hf : g.find u = some edges)
      (he : (v, w) ∈ edges) : IsPathList g s v (ns ++ [v]) (c + w)

theorem path_shape {g : Graph} {s v : Node} {ns : List Node} {c : ℚ}
    (h : IsPathList g s v ns c) : ∃ t, ns = s :: t := by
  induction h with
  | single => exact ⟨[], rfl⟩
  | snoc h hf he ih =>
    obtain ⟨t, ht⟩ := ih
    exact ⟨t ++ [_], by rw [ht]; rfl⟩

theorem path_cost_nonneg {g : Graph} (hnn : ∀ p ∈ g.adj, ∀ e ∈ p.2, 0 ≤ e.2)
    {s v : Node} {ns : List Node} {c : ℚ}
    (h : IsPathList g s v ns c) : 0 ≤ c := by
  induction h with
  | single => exact le_refl 0
  | snoc h hf he ih =>
    have hw := hnn _ (assocFind_mem hf) _ he
    exact add_nonneg ih hw

/-- Total degree of the adjacency entries whose key is not yet visited:
the potential that strictly decreases on every loop iteration. -/
def degSum (l : List (Node × List (Node × ℚ))) (visited : List Node) : Nat :=
  ((l.filter fun p => decide (p.1 ∉ visited)).map fun p => p.2.length).sum

theorem degSum_nil_visited (l : List (Node × List (Node × ℚ))) :
    degSum l [] = (l.map fun p => p.2.length).sum := by
  induction l with
  | nil => rfl
  | cons p rest ih =>
    simp only [degSum, List.filter_cons] at ih ⊢
    rw [if_pos (by simp)]
    simp only [List.map_cons, List.sum_cons]
    rw [ih]

theorem degSum_mono_cons (l : List (Node × List (Node × ℚ))) (u : Node)
    (V : List Node) : degSum l (u :: V) ≤ degSum l V := by
  induction l with
  | nil => exact le_refl 0
  | cons p rest ih =>
    simp only [degSum, List.filter_cons] at ih ⊢
    by_cases hv : p.1 ∈ V
    · rw [if_neg (by simp [hv]), if_neg (by simp [hv])]
      exact ih
    · by_cases hu : p.1 = u
      · rw [if_neg (by simp [hu]), if_pos (by simp [hv])]
        simp only [List.map_cons, List.sum_cons]
        omega
      · rw [if_pos (by simp [hv, hu]), if_pos (by simp [hv])]
        simp only [List.map_cons, List.sum_cons]
        omega

theorem degSum_find_cons (l : List (Node × List (Node × ℚ))) (u : Node)
    (V : List Node) (edges : List (Node × ℚ)) (hu : u ∉ V)
    (hf : assocFind u l = some edges) :
    degSum l (u :: V) + edges.length ≤ degSum l V := by
  induction l with
  | nil => simp [assocFind] at hf
  | cons p rest ih =>
    by_cases hup : u = p.1
    · have hedges : edges = p.2 := by
        simp only [assocFind, if_pos hup] at hf
        exact (Option.some_injective _ hf).symm
      simp only [degSum, List.filter_cons]
      rw [if_neg (by simp [← hup]), if_pos (by simp [← hup, hu])]
      simp only [List.map_cons, List.sum_cons, hedges]
      have := degSum_mono_cons rest u V
      simp only [degSum] at this
      omega
    · have hf' : assocFind u rest = some edges := by
        simpa only [assocFind, if_neg hup] using hf
      simp only [degSum, List.filter_cons]
      by_cases hv : p.1 ∈ V
      · rw [if_neg (by simp [hv]), if_neg (by simp [hv])]
        exact ih hf'
      · rw [if_pos (by simp [hv]; exact fun hc => hup hc.symm), if_pos (by simp [hv])]
        simp only [List.map_cons, List.sum_cons]
        have := ih hf'
        simp only [degSum] at this ⊢
        omega

theorem decreaseKey_length (m : MinHeap) (v : Node) (q : ℚ) :
    (m.decreaseKey v q).heap.length ≤ m.heap.length + 1 := by
  simp only [MinHeap.decreaseKey]
  have hins : (m.insert v q).heap.length = m.heap.length + 1 := by
    show (MinHeap.bubbleUpAux _ _ _).heap.length = _
    rw [MinHeap.bubbleUpAux_heap_length]
    simp
  cases hg : idxGet m.nodeIndices v with
  | none => dsimp only; omega
  | some idx =>
    dsimp only
    by_cases hlt : q < (m.heap.getD idx junkEntry).priority
    · rw [if_pos hlt]
      show (MinHeap.bubbleUpAux _ _ _).heap.length ≤ _
      rw [MinHeap.bubbleUpAux_heap_length]
      simp
    · rw [if_neg hlt]
      omega

theorem relaxEdge_heap_length (g : Graph) (current : Node) (currentDist : ℚ)
    (st : DijkstraState) (e : Node × ℚ) :
    (relaxEdge g current currentDist st e).heap.heap.length ≤
      st.heap.heap.length + 1 := by
  simp only [relaxEdge]
  split
  · omega
  · split
    · exact decreaseKey_length _ _ _
    · omega

theorem relaxNeighbors_heap_length (g : Graph) (current : Node) (currentDist : ℚ)
    (st : DijkstraState) (edges : List (Node × ℚ))
    (hf : g.find current = some edges) :
    (relaxNeighbors g current currentDist st).heap.heap.length ≤
      st.heap.heap.length + edges.length := by
  unfold relaxNeighbors
  rw [hf]
  clear hf
  induction edges generalizing st with
  | nil => simp
  | cons e rest ih =>
    simp only [List.foldl_cons, List.length_cons]
    have h1 := relaxEdge_heap_length g current currentDist st e
    exact le_trans (ih (relaxEdge g current currentDist st e)) (by omega)

/-- The invariant of the Dijkstra main loop, at the top of each iteration.
dist/prev/visited/heap are related exactly as the source maintains them:
finite distances are realized by walks, heap entries over-approximate
distances, every unvisited node with a finite distance has an exact heap
entry, visited distances are optimal, all edges out of visited nodes are
relaxed, and predecessor pointers point to earlier-visited nodes with the
defining distance equation. -/
structure DInv (g : Graph) (start : Node) (st : DijkstraState) : Prop where
  vis_keys : ∀ v ∈ st.visited, (g.find v).isSome
  vis_nodup : st.visited.Nodup
  heap_keys : ∀ e ∈ st.heap.heap, (g.find e.node).isSome
  heap_inv : HeapInv st.heap
  dist_start : st.dist start ≤ ((0 : ℚ) : Distance)
  prev_start : st.prev start = none
  realz : ∀ v (c : ℚ), st.dist v = (c : Distance) → ∃ ns, IsPathList g start v ns c
  upper : ∀ e ∈ st.heap.heap, st.dist e.node ≤ (e.priority : Distance)
  frontier : ∀ v, v ∉ st.visited → ∀ c : ℚ, st.dist v = (c : Distance) →
    ∃ e ∈ st.heap.heap, e.node = v ∧ e.priority = c
  vis_fin : ∀ v ∈ st.visited, st.dist v ≠ ⊤
  vis_min : ∀ v ∈ st.visited, ∀ e ∈ st.heap.heap, st.dist v ≤ (e.priority : Distance)
  vis_opt : ∀ v ∈ st.visited, ∀ ns (c : ℚ), IsPathList g start v ns c →
    st.dist v ≤ (c : Distance)
  relaxed : ∀ u ∈ st.visited, ∀ edges, g.find u = some edges →
    ∀ vw ∈ edges, (g.find vw.1).isSome → st.dist vw.1 ≤ st.dist u + (vw.2 : Distance)
  prev_spec : ∀ v u, st.prev v = some u → u ∈ st.visited ∧
    ∃ edges, g.find u = some edges ∧ ∃ w : ℚ, (v, w) ∈ edges ∧
      st.dist v = st.dist u + (w : Distance)
  prev_order : ∀ v u, st.prev v = some u → v ∈ st.visited →
    st.visited.indexOf v < st.visited.indexOf u
  prev_some : ∀ v, v ≠ start → st.dist v ≠ ⊤ → st.prev v ≠ none

/-- The invariant threaded through the neighbor-relaxation fold while a
node u (just finalized, with exact distance p) has its edges processed:
DInv with the relaxation clause restricted to the other visited nodes,
plus the facts about u established at pop time. -/
structure RInv (g : Graph) (start u : Node) (p : ℚ) (s : DijkstraState) : Prop where
  vis_keys : ∀ v ∈ s.visited, (g.find v).isSome
  vis_nodup : s.visited.Nodup
  heap_keys : ∀ e ∈ s.heap.heap, (g.find e.node).isSome
  heap_inv : HeapInv s.heap
  dist_start : s.dist start ≤ ((0 : ℚ) : Distance)
  prev_start : s.prev start = none
  realz : ∀ v (c : ℚ), s.dist v = (c : Distance) → ∃ ns, IsPathList g start v ns c
  upper : ∀ e ∈ s.heap.heap, s.dist e.node ≤ (e.priority : Distance)
  frontier : ∀ v, v ∉ s.visited → ∀ c : ℚ, s.dist v = (c : Distance) →
    ∃ e ∈ s.heap.heap, e.node = v ∧ e.priority = c
  vis_fin : ∀ v ∈ s.visited, s.dist v ≠ ⊤
  vis_min : ∀ v ∈ s.visited, ∀ e ∈ s.heap.heap, s.dist v ≤ (e.priority : Distance)
  vis_le_p : ∀ v ∈ s.visited, s.dist v ≤ (p : Distance)
  vis_opt : ∀ v ∈ s.visited, ∀ ns (c : ℚ), IsPathList g start v ns c →
    s.dist v ≤ (c : Distance)
  relaxedV : ∀ u' ∈ s.visited, u' ≠ u → ∀ edges, g.find u' = some edges →
    ∀ vw ∈ edges, (g.find vw.1).isSome → s.dist vw.1 ≤ s.dist u' + (vw.2 : Distance)
  prev_spec : ∀ v u', s.prev v = some u' → u' ∈ s.visited ∧
    ∃ edges, g.find u' = some edges ∧ ∃ w : ℚ, (v, w) ∈ edges ∧
      s.dist v = s.dist u' + (w : Distance)
  prev_order : ∀ v u', s.prev v = some u' → v ∈ s.visited →
    s.visited.indexOf v < s.visited.indexOf u'
  prev_some : ∀ v, v ≠ start → s.dist v ≠ ⊤ → s.prev v ≠ none
  mem_u : u ∈ s.visited
  dist_u : s.dist u = (p : Distance)

/-- The initial loop state of calculateShortestPathCore satisfies DInv. -/
theorem dInv_init (g : Graph) (start : Node) (hstart : (g.find start).isSome) :
    DInv g start
      { dist := Function.update (fun _ => (⊤ : Distance)) start ((0 : ℚ) : Distance)
        prev := fun _ => none
        visited := []
        heap := MinHeap.empty.insert start 0 } := by
  have hheap : (MinHeap.empty.insert start 0).heap = [HeapEntry.mk start 0] := rfl
  have hdist : ∀ v (c : ℚ),
      Function.update (fun _ => (⊤ : Distance)) start ((0 : ℚ) : Distance) v
        = (c : Distance) → v = start ∧ c = 0 := by
    intro v c hv
    by_cases hvs : v = start
    · subst hvs
      rw [Function.update_same] at hv
      exact ⟨rfl, by exact_mod_cast hv.symm⟩
    · rw [Function.update_noteq hvs] at hv
      exact absurd hv.symm (by simp)
  constructor
  case vis_keys => intro v hv; simp at hv
  case vis_nodup => exact List.nodup_nil
  case heap_keys =>
    intro e he
    rw [hheap] at he
    rcases List.mem_singleton.mp he with rfl
    exact hstart
  case heap_inv => exact insert_HeapInv _ _ _ empty_HeapInv
  case dist_start => dsimp only; rw [Function.update_same]
  case prev_start => rfl
  case realz =>
    intro v c hv
    obtain ⟨hvs, hc0⟩ := hdist v c hv
    rw [hvs, hc0]
    exact ⟨[start], IsPathList.single⟩
  case upper =>
    intro e he
    rw [hheap] at he
    rcases List.mem_singleton.mp he with rfl
    dsimp only
    rw [Function.update_same]
  case frontier =>
    intro v _ c hv
    obtain ⟨hvs, hc0⟩ := hdist v c hv
    rw [hvs, hc0]
    exact ⟨HeapEntry.mk start 0, by rw [hheap]; exact List.mem_singleton_self _, rfl, rfl⟩
  case vis_fin => intro v hv; simp at hv
  case vis_min => intro v hv; simp at hv
  case vis_opt => intro v hv; simp at hv
  case relaxed => intro u hu; simp at hu
  case prev_spec => intro v u hvu; exact absurd hvu (by simp)
  case prev_order => intro v u hvu; exact absurd hvu (by simp)
  case prev_some =>
    intro v hvs hfin
    apply absurd _ hfin
    show Function.update (fun _ => (⊤ : Distance)) start ((0 : ℚ) : Distance) v = ⊤
    rw [Function.update_noteq hvs]

theorem relaxEdge_preserves (g : Graph) (start u : Node) (p : ℚ)
    (hnn : ∀ q ∈ g.adj, ∀ e ∈ q.2, 0 ≤ e.2)
    (edges : List (Node × ℚ)) (hfind : g.find u = some edges)
    (s : DijkstraState) (vw : Node × ℚ) (hvw : vw ∈ edges)
    (hR : RInv g start u p s) :
    RInv g start u p (relaxEdge g u p s vw) ∧
    (∀ x, (relaxEdge g u p s vw).dist x ≤ s.dist x) ∧
    ((g.find vw.1).isSome →
      (relaxEdge g u p s vw).dist vw.1 ≤ ((p + vw.2 : ℚ) : Distance)) ∧
    (relaxEdge g u p s vw).visited = s.visited := by
  obtain ⟨v, w⟩ := vw
  have hw0 : 0 ≤ w := hnn _ (assocFind_mem hfind) _ hvw
  have hp0 : 0 ≤ p := by
    obtain ⟨ns, hpath⟩ := hR.realz u p hR.dist_u
    exact path_cost_nonneg hnn hpath
  have hcoe_mono : ((p : ℚ) : Distance) ≤ ((p + w : ℚ) : Distance) := by
    exact_mod_cast by linarith
  simp only [relaxEdge]
  by_cases hvis : v ∈ s.visited
  · rw [if_pos hvis]
    refine ⟨hR, fun x => le_refl _, fun _ => ?_, rfl⟩
    exact le_trans (hR.vis_le_p v hvis) hcoe_mono
  · rw [if_neg hvis]
    by_cases hg2 : (g.find v).isSome ∧ ((p + w : ℚ) : Distance) < s.dist v
    · rw [if_pos hg2]
      have hvstart : v ≠ start := by
        intro hc
        rw [hc] at hg2
        have h1 := lt_of_lt_of_le hg2.2 hR.dist_start
        have : (p + w : ℚ) < 0 := by exact_mod_cast h1
        linarith
      have hvu : v ≠ u := fun hc => hvis (hc ▸ hR.mem_u)
      have hdv : Function.update s.dist v ((p + w : ℚ) : Distance) v
          = ((p + w : ℚ) : Distance) := Function.update_same _ _ _
      have hdist_other : ∀ x, x ≠ v →
          Function.update s.dist v ((p + w : ℚ) : Distance) x = s.dist x :=
        fun x hx => Function.update_noteq hx _ _
      have hdists : ∀ x, Function.update s.dist v ((p + w : ℚ) : Distance) x
          ≤ s.dist x := by
        intro x
        by_cases hx : x = v
        · rw [hx, hdv]
          exact le_of_lt hg2.2
        · rw [hdist_other x hx]
      have hOK : idxOK s.heap := hR.heap_inv.2
      have hmems : (∀ e' ∈ (s.heap.decreaseKey v (p + w)).heap,
            e' ∈ s.heap.heap ∨ (e'.node = v ∧ e'.priority = p + w)) ∧
          HeapEntry.mk v (p + w) ∈ (s.heap.decreaseKey v (p + w)).heap ∧
          (∀ e' ∈ s.heap.heap, e'.node ≠ v →
            e' ∈ (s.heap.decreaseKey v (p + w)).heap) := by
        rcases decreaseKey_heap_cases s.heap v (p + w) hOK with hperm | ⟨idx, hidx, hnode, hperm⟩
        · refine ⟨?_, ?_, ?_⟩
          · intro e' he'
            rcases List.mem_append.mp (hperm.mem_iff.mp he') with h1 | h2
            · exact Or.inl h1
            · rcases List.mem_singleton.mp h2 with rfl
              exact Or.inr ⟨rfl, rfl⟩
          · exact hperm.mem_iff.mpr (List.mem_append_right _ (List.mem_singleton_self _))
          · intro e' he' _
            exact hperm.mem_iff.mpr (List.mem_append_left _ he')
        · refine ⟨?_, ?_, ?_⟩
          · intro e' he'
            rcases List.mem_or_eq_of_mem_set (hperm.mem_iff.mp he') with h1 | h2
            · exact Or.inl h1
            · exact Or.inr ⟨by rw [h2], by rw [h2]⟩
          · apply hperm.mem_iff.mpr
            have hm := getD_mem (s.heap.heap.set idx (HeapEntry.mk v (p + w))) idx
              junkEntry (by simpa using hidx)
            rwa [getD_set_self s.heap.heap idx _ junkEntry hidx] at hm
          · intro e' he' hne
            apply hperm.mem_iff.mpr
            obtain ⟨k, hk, hke⟩ := (mem_iff_getD s.heap.heap e' junkEntry).mp he'
            have hkidx : k ≠ idx := by
              intro hc
              apply hne
              rw [← hke, hc]
              exact hnode
            rw [← hke, ← getD_set_ne s.heap.heap idx k (HeapEntry.mk v (p + w))
              junkEntry hkidx]
            exact getD_mem _ k _ (by simpa using hk)
      obtain ⟨hmem_sub, hmem_new, hmem_keep⟩ := hmems
      refine ⟨?_, hdists, fun _ => le_of_eq hdv, rfl⟩
      refine ⟨?_, ?_, ?_, ?_, ?_, ?_, ?_, ?_, ?_, ?_, ?_, ?_, ?_, ?_, ?_, ?_, ?_, ?_, ?_⟩
      · exact hR.vis_keys
      · exact hR.vis_nodup
      ·
        intro e' he'
        rcases hmem_sub e' he' with h1 | ⟨hn, _⟩
        · exact hR.heap_keys e' h1
        · rw [hn]; exact hg2.1
      · exact decreaseKey_HeapInv s.heap v (p + w) hR.heap_inv
      ·
        show Function.update s.dist v _ start ≤ _
        rw [hdist_other start (fun hc => hvstart hc.symm)]
        exact hR.dist_start
      ·
        show Function.update s.prev v (some u) start = none
        rw [Function.update_noteq (fun hc => hvstart hc.symm)]
        exact hR.prev_start
      ·
        intro x c hx
        change Function.update s.dist v _ x = _ at hx
        by_cases hxv : x = v
        · subst hxv
          rw [hdv] at hx
          have hc : c = p + w := by exact_mod_cast hx.symm
          obtain ⟨ns, hpath⟩ := hR.realz u p hR.dist_u
          exact ⟨ns ++ [x], hc ▸ IsPathList.snoc hpath hfind hvw⟩
        · rw [hdist_other x hxv] at hx
          exact hR.realz x c hx
      ·
        intro e' he'
        rcases hmem_sub e' he' with h1 | ⟨hn, hpri⟩
        · exact le_trans (hdists e'.node) (hR.upper e' h1)
        · show Function.update s.dist v _ e'.node ≤ _
          rw [hn, hdv, hpri]
      ·
        intro x hxvis c hx
        change Function.update s.dist v _ x = _ at hx
        by_cases hxv : x = v
        · subst hxv
          rw [hdv] at hx
          have hc : p + w = c := by exact_mod_cast hx
          exact ⟨HeapEntry.mk x (p + w), hmem_new, rfl, hc⟩
        · rw [hdist_other x hxv] at hx
          obtain ⟨e', he', hn, hpri⟩ := hR.frontier x hxvis c hx
          exact ⟨e', hmem_keep e' he' (by rw [hn]; exact hxv), hn, hpri⟩
      ·
        intro x hx
        show Function.update s.dist v _ x ≠ ⊤
        rw [hdist_other x (fun hc => hvis (hc ▸ hx))]
        exact hR.vis_fin x hx
      ·
        intro x hx e' he'
        have hdx : Function.update s.dist v ((p + w : ℚ) : Distance) x = s.dist x :=
          hdist_other x (fun hc => hvis (hc ▸ hx))
        rcases hmem_sub e' he' with h1 | ⟨_, hpri⟩
        · show Function.update s.dist v _ x ≤ _
          rw [hdx]
          exact hR.vis_min x hx e' h1
        · show Function.update s.dist v _ x ≤ _
          rw [hdx, hpri]
          exact le_trans (hR.vis_le_p x hx) hcoe_mono
      ·
        intro x hx
        show Function.update s.dist v _ x ≤ _
        rw [hdist_other x (fun hc => hvis (hc ▸ hx))]
        exact hR.vis_le_p x hx
      ·
        intro x hx ns c hpath
        show Function.update s.dist v _ x ≤ _
        rw [hdist_other x (fun hc => hvis (hc ▸ hx))]
        exact hR.vis_opt x hx ns c hpath
      ·
        intro u' hu' hne edges' hf' vw' hvw' hsome'
        have hdu' : Function.update s.dist v ((p + w : ℚ) : Distance) u' = s.dist u' :=
          hdist_other u' (fun hc => hvis (hc ▸ hu'))
        show Function.update s.dist v _ vw'.1 ≤ Function.update s.dist v _ u' + _
        rw [hdu']
        exact le_trans (hdists vw'.1) (hR.relaxedV u' hu' hne edges' hf' vw' hvw' hsome')
      ·
        intro x u' hx
        change Function.update s.prev v (some u) x = some u' at hx
        by_cases hxv : x = v
        · rw [hxv, Function.update_same] at hx
          have hu' : u' = u := (Option.some_injective _ hx).symm
          rw [hxv, hu']
          refine ⟨hR.mem_u, edges, hfind, w, hvw, ?_⟩
          show Function.update s.dist v _ v = Function.update s.dist v _ u + _
          rw [hdv, hdist_other u (fun hc => hvu hc.symm), hR.dist_u]
          push_cast
          rfl
        · rw [Function.update_noteq hxv] at hx
          obtain ⟨hu'vis, edges', hf', w', hvw', heq⟩ := hR.prev_spec x u' hx
          refine ⟨hu'vis, edges', hf', w', hvw', ?_⟩
          show Function.update s.dist v _ x = Function.update s.dist v _ u' + _
          rw [hdist_other x hxv, hdist_other u' (fun hc => hvis (hc ▸ hu'vis))]
          exact heq
      ·
        intro x u' hx hxvis
        have hxvis' : x ∈ s.visited := hxvis
        change Function.update s.prev v (some u) x = some u' at hx
        rw [Function.update_noteq (fun hc : x = v => hvis (hc ▸ hxvis'))] at hx
        exact hR.prev_order x u' hx hxvis'
      ·
        intro x hxs hxf
        by_cases hxv : x = v
        · subst hxv
          show Function.update s.prev x (some u) x ≠ none
          rw [Function.update_same]
          simp
        · show Function.update s.prev v (some u) x ≠ none
          rw [Function.update_noteq hxv]
          apply hR.prev_some x hxs
          show s.dist x ≠ ⊤
          change Function.update s.dist v _ x ≠ ⊤ at hxf
          rwa [hdist_other x hxv] at hxf
      · exact hR.mem_u
      ·
        show Function.update s.dist v _ u = _
        rw [hdist_other u (fun hc => hvu hc.symm)]
        exact hR.dist_u
    · rw [if_neg hg2]
      refine ⟨hR, fun x => le_refl _, fun hsome => ?_, rfl⟩
      by_cases hlt : ((p + w : ℚ) : Distance) < s.dist v
      · exact absurd ⟨hsome, hlt⟩ hg2
      · exact le_of_not_lt hlt

/-- The cut argument: when every heap entry has priority at least p, every
walk to a graph key either already beats the recorded distance of its
endpoint or costs at least p. -/
theorem dijkstra_cut (g : Graph) (start : Node) (st : DijkstraState) (p : ℚ)
    (hnn : ∀ q ∈ g.adj, ∀ e ∈ q.2, 0 ≤ e.2)
    (hD : DInv g start st)
    (hroot : ∀ e ∈ st.heap.heap, p ≤ e.priority) :
    ∀ v (ns : List Node) (c : ℚ), IsPathList g start v ns c → (g.find v).isSome →
      st.dist v ≤ (c : Distance) ∨ (p : Distance) ≤ (c : Distance) := by
  intro v ns c hpath
  induction hpath with
  | single => intro _; exact Or.inl hD.dist_start
  | @snoc u' v' ns' c' w edges' h hf he ih =>
    intro _
    have hw0 : 0 ≤ w := hnn _ (assocFind_mem hf) _ he
    have hsome' : (g.find u').isSome := by rw [hf]; rfl
    rcases ih hsome' with hle | hge
    · by_cases hu'vis : u' ∈ st.visited
      · left
        have h1 := hD.relaxed u' hu'vis edges' hf (v', w) he (by assumption)
        have h2 : st.dist u' + ((w : ℚ) : Distance) ≤ ((c' : ℚ) : Distance) + (w : Distance) :=
          add_le_add_right hle _
        have h3 : ((c' : ℚ) : Distance) + ((w : ℚ) : Distance) = ((c' + w : ℚ) : Distance) := by
          push_cast
          rfl
        exact le_trans h1 (by rw [← h3]; exact h2)
      · right
        have hfin : st.dist u' ≠ ⊤ := (lt_of_le_of_lt hle (WithTop.coe_lt_top c')).ne
        obtain ⟨c0, hc0⟩ := WithTop.ne_top_iff_exists.mp hfin
        obtain ⟨e', he', _, hp'⟩ := hD.frontier u' hu'vis c0 hc0.symm
        have hpc0 : p ≤ c0 := hp' ▸ hroot e' he'
        have hc0c' : c0 ≤ c' := by
          rw [← WithTop.coe_le_coe]
          exact hc0 ▸ hle
        exact_mod_cast (by linarith : p ≤ c' + w)
    · right
      exact le_trans hge (by exact_mod_cast (by linarith : c' ≤ c' + w))

theorem foldl_relax (g : Graph) (start u : Node) (p : ℚ)
    (hnn : ∀ q ∈ g.adj, ∀ e ∈ q.2, 0 ≤ e.2)
    (edges : List (Node × ℚ)) (hfind : g.find u = some edges) :
    ∀ (l : List (Node × ℚ)) (s : DijkstraState), (∀ e ∈ l, e ∈ edges) →
      RInv g start u p s →
      RInv g start u p (l.foldl (relaxEdge g u p) s) ∧
      (∀ x, (l.foldl (relaxEdge g u p) s).dist x ≤ s.dist x) ∧
      (∀ vw ∈ l, (g.find vw.1).isSome →
        (l.foldl (relaxEdge g u p) s).dist vw.1 ≤ ((p + vw.2 : ℚ) : Distance)) ∧
      (l.foldl (relaxEdge g u p) s).visited = s.visited := by
  intro l
  induction l with
  | nil =>
    intro s _ hR
    exact ⟨hR, fun x => le_refl _, by simp, rfl⟩
  | cons e rest ih =>
    intro s hsub hR
    obtain ⟨hR1, hmono1, hproc1, hvis1⟩ :=
      relaxEdge_preserves g start u p hnn edges hfind s e (hsub e (List.mem_cons_self e rest)) hR
    obtain ⟨hRf, hmonof, hprocf, hvisf⟩ :=
      ih (relaxEdge g u p s e) (fun x hx => hsub x (List.mem_cons_of_mem e hx)) hR1
    simp only [List.foldl_cons]
    refine ⟨hRf, fun x => le_trans (hmonof x) (hmono1 x), ?_, by rw [hvisf, hvis1]⟩
    intro vw hvw hsome
    rcases List.mem_cons.mp hvw with rfl | hrest
    · exact le_trans (hmonof vw.1) (hproc1 hsome)
    · exact hprocf vw hrest hsome

theorem RInv_to_DInv (g : Graph) (start u : Node) (p : ℚ) (s : DijkstraState)
    (hR : RInv g start u p s)
    (hrel_u : ∀ edges, g.find u = some edges → ∀ vw ∈ edges, (g.find vw.1).isSome →
      s.dist vw.1 ≤ s.dist u + (vw.2 : Distance)) : DInv g start s where
  vis_keys := hR.vis_keys
  vis_nodup := hR.vis_nodup
  heap_keys := hR.heap_keys
  heap_inv := hR.heap_inv
  dist_start := hR.dist_start
  prev_start := hR.prev_start
  realz := hR.realz
  upper := hR.upper
  frontier := hR.frontier
  vis_fin := hR.vis_fin
  vis_min := hR.vis_min
  vis_opt := hR.vis_opt
  relaxed := by
    intro u' hu' edges hf vw hvw hsome
    by_cases hu'u : u' = u
    · rw [hu'u] at hf ⊢
      exact hrel_u edges hf vw hvw hsome
    · exact hR.relaxedV u' hu' hu'u edges hf vw hvw hsome
  prev_spec := hR.prev_spec
  prev_order := hR.prev_order
  prev_some := hR.prev_some

theorem dInv_skip (g : Graph) (start : Node) (st : DijkstraState)
    (minItem : HeapEntry) (heapAfter : MinHeap) (hD : DInv g start st)
    (hpop : st.heap.extractMin = (some minItem, heapAfter))
    (hguard : minItem.node ∈ st.visited ∨
      (minItem.priority : Distance) > st.dist minItem.node) :
    DInv g start { st with heap := heapAfter } := by
  obtain ⟨hmin0, hperm⟩ := extractMin_some_spec st.heap _ _ hpop
  have hAfterSub : ∀ e ∈ heapAfter.heap, e ∈ st.heap.heap := fun e he =>
    hperm.mem_iff.mpr (List.mem_cons_of_mem _ he)
  have hHeapInvAfter : HeapInv heapAfter := by
    have := extractMin_HeapInv st.heap hD.heap_inv
    rw [hpop] at this
    exact this
  refine ⟨hD.vis_keys, hD.vis_nodup, fun e he => hD.heap_keys e (hAfterSub e he),
    hHeapInvAfter, hD.dist_start, hD.prev_start, hD.realz,
    fun e he => hD.upper e (hAfterSub e he), ?_, hD.vis_fin,
    fun v hv e he => hD.vis_min v hv e (hAfterSub e he), hD.vis_opt, hD.relaxed,
    hD.prev_spec, hD.prev_order, hD.prev_some⟩
  intro v hv c hc
  obtain ⟨e', he', hn', hp'⟩ := hD.frontier v hv c hc
  have hne : e' ≠ minItem := by
    rcases hguard with hu | hstale
    · intro hc'
      apply hv
      rw [← hn', hc']
      exact hu
    · intro hc'
      by_cases hvm : v = minItem.node
      · have hlt : st.dist minItem.node < (minItem.priority : Distance) := hstale
        rw [← hvm, hc] at hlt
        have hcp : c < minItem.priority := by exact_mod_cast hlt
        rw [hc'] at hp'
        exact absurd hp' (by linarith)
      · rw [← hn', hc'] at hvm
        exact hvm rfl
  have he2 : e' ∈ heapAfter.heap := by
    rcases List.mem_cons.mp (hperm.mem_iff.mp he') with h1 | h2
    · exact absurd h1 hne
    · exact h2
  exact ⟨e', he2, hn', hp'⟩

theorem dInv_visit (g : Graph) (start : Node)
    (hnn : ∀ q ∈ g.adj, ∀ e ∈ q.2, 0 ≤ e.2)
    (st : DijkstraState) (minItem : HeapEntry) (heapAfter : MinHeap)
    (hD : DInv g start st)
    (hpop : st.heap.extractMin = (some minItem, heapAfter))
    (hnv : minItem.node ∉ st.visited)
    (hns : ¬((minItem.priority : Distance) > st.dist minItem.node)) :
    DInv g start (relaxNeighbors g minItem.node minItem.priority
      { dist := st.dist, prev := st.prev, visited := minItem.node :: st.visited
        heap := heapAfter }) := by
  obtain ⟨hmin0, hperm⟩ := extractMin_some_spec st.heap _ _ hpop
  have hmem_min : minItem ∈ st.heap.heap :=
    hperm.mem_iff.mpr (List.mem_cons_self _ _)
  have hdu_le : st.dist minItem.node ≤ (minItem.priority : Distance) :=
    hD.upper _ hmem_min
  have hple : (minItem.priority : Distance) ≤ st.dist minItem.node := not_lt.mp hns
  have hdu : st.dist minItem.node = (minItem.priority : Distance) :=
    le_antisymm hdu_le hple
  have hroot : ∀ e ∈ st.heap.heap, minItem.priority ≤ e.priority := by
    intro e he
    have h1 := root_min st.heap.heap hD.heap_inv.1 e he
    rw [← hmin0] at h1
    exact h1
  have hcut := dijkstra_cut g start st minItem.priority hnn hD hroot
  have hAfterSub : ∀ e ∈ heapAfter.heap, e ∈ st.heap.heap := fun e he =>
    hperm.mem_iff.mpr (List.mem_cons_of_mem _ he)
  have hsome_u : (g.find minItem.node).isSome := hD.heap_keys _ hmem_min
  have hHeapInvAfter : HeapInv heapAfter := by
    have := extractMin_HeapInv st.heap hD.heap_inv
    rw [hpop] at this
    exact this
  have hRv : RInv g start minItem.node minItem.priority
      { dist := st.dist, prev := st.prev, visited := minItem.node :: st.visited
        heap := heapAfter } := by
    refine ⟨?_, ?_, ?_, ?_, ?_, ?_, ?_, ?_, ?_, ?_, ?_, ?_, ?_, ?_, ?_, ?_, ?_, ?_, ?_⟩
    · intro v hv
      rcases List.mem_cons.mp hv with rfl | hv'
      · exact hsome_u
      · exact hD.vis_keys v hv'
    · exact List.nodup_cons.mpr ⟨hnv, hD.vis_nodup⟩
    · exact fun e he => hD.heap_keys e (hAfterSub e he)
    · exact hHeapInvAfter
    · exact hD.dist_start
    · exact hD.prev_start
    · exact hD.realz
    · exact fun e he => hD.upper e (hAfterSub e he)
    · intro v hv c hc
      have hv2 : v ≠ minItem.node ∧ v ∉ st.visited := by
        constructor
        · intro hc'; exact hv (by rw [hc']; exact List.mem_cons_self _ _)
        · intro hc'; exact hv (List.mem_cons_of_mem _ hc')
      obtain ⟨e', he', hn', hp'⟩ := hD.frontier v hv2.2 c hc
      have hne : e' ≠ minItem := by
        intro hc'
        apply hv2.1
        rw [← hn', hc']
      have he2 : e' ∈ heapAfter.heap := by
        rcases List.mem_cons.mp (hperm.mem_iff.mp he') with h1 | h2
        · exact absurd h1 hne
        · exact h2
      exact ⟨e', he2, hn', hp'⟩
    · intro v hv
      rcases List.mem_cons.mp hv with rfl | hv'
      · rw [hdu]; exact WithTop.coe_ne_top
      · exact hD.vis_fin v hv'
    · intro v hv e he
      rcases List.mem_cons.mp hv with rfl | hv'
      · show st.dist minItem.node ≤ _
        rw [hdu]
        exact_mod_cast hroot e (hAfterSub e he)
      · exact hD.vis_min v hv' e (hAfterSub e he)
    · intro v hv
      rcases List.mem_cons.mp hv with rfl | hv'
      · exact le_of_eq hdu
      · exact hD.vis_min v hv' minItem hmem_min
    · intro v hv ns c hpath
      rcases List.mem_cons.mp hv with rfl | hv'
      · rcases hcut minItem.node ns c hpath hsome_u with h | h
        · exact h
        · show st.dist minItem.node ≤ _
          rw [hdu]
          exact h
      · exact hD.vis_opt v hv' ns c hpath
    · intro u' hu' hne edges hf vw hvw hs
      rcases List.mem_cons.mp hu' with rfl | hv'
      · exact absurd rfl hne
      · exact hD.relaxed u' hv' edges hf vw hvw hs
    · intro v u' hv
      obtain ⟨hu'V, rest⟩ := hD.prev_spec v u' hv
      exact ⟨List.mem_cons_of_mem _ hu'V, rest⟩
    · intro v u' hpv hvvis
      have hu'V : u' ∈ st.visited := (hD.prev_spec v u' hpv).1
      have hu'u : u' ≠ minItem.node := fun hc => hnv (hc ▸ hu'V)
      show (minItem.node :: st.visited).indexOf v < (minItem.node :: st.visited).indexOf u'
      rw [List.indexOf_cons_ne _ (fun hc => hu'u hc.symm)]
      rcases List.mem_cons.mp hvvis with rfl | hvV
      · rw [List.indexOf_cons_self]
        omega
      · have hvu : v ≠ minItem.node := fun hc => hnv (hc ▸ hvV)
        rw [List.indexOf_cons_ne _ (fun hc => hvu hc.symm)]
        have := hD.prev_order v u' hpv hvV
        omega
    · exact hD.prev_some
    · exact List.mem_cons_self _ _
    · exact hdu
  cases hfu : g.find minItem.node with
  | none =>
    rw [relaxNeighbors_of_find_none _ _ _ _ hfu]
    apply RInv_to_DInv _ _ _ _ _ hRv
    intro edges hf
    rw [hfu] at hf
    exact absurd hf (by simp)
  | some edges =>
    obtain ⟨hRf, hmonof, hprocf, hvisf⟩ :=
      foldl_relax g start minItem.node minItem.priority hnn edges hfu edges
        _ (fun x hx => hx) hRv
    have hrn : relaxNeighbors g minItem.node minItem.priority
        { dist := st.dist, prev := st.prev, visited := minItem.node :: st.visited
          heap := heapAfter } = edges.foldl (relaxEdge g minItem.node minItem.priority)
        { dist := st.dist, prev := st.prev, visited := minItem.node :: st.visited
          heap := heapAfter } := by
      unfold relaxNeighbors
      rw [hfu]
    rw [hrn]
    apply RInv_to_DInv _ _ _ _ _ hRf
    intro edges' hf' vw hvw hsome
    have hedges : edges' = edges := by
      rw [hfu] at hf'
      exact (Option.some_injective _ hf').symm
    subst hedges
    have hp1 := hprocf vw hvw hsome
    rw [hRf.dist_u]
    have hcoe : ((minItem.priority + vw.2 : ℚ) : Distance) =
        (minItem.priority : Distance) + (vw.2 : Distance) := by
      push_cast
      rfl
    rw [← hcoe]
    exact hp1

theorem dijkstraLoop_spec (g : Graph) (start : Node)
    (hnn : ∀ q ∈ g.adj, ∀ e ∈ q.2, 0 ≤ e.2) :
    ∀ (fuel : Nat) (st : DijkstraState), DInv g start st →
      st.heap.heap.length + degSum g.adj st.visited ≤ fuel →
      DInv g start (dijkstraLoopAux g fuel st) ∧
      (dijkstraLoopAux g fuel st).heap.heap.length = 0 := by
  intro fuel
  induction fuel with
  | zero =>
    intro st hD hphi
    refine ⟨hD, ?_⟩
    show st.heap.heap.length = 0
    omega
  | succ fuel ih =>
    intro st hD hphi
    simp only [dijkstraLoopAux]
    cases hpop : st.heap.extractMin with
    | mk fst heapAfter =>
      cases fst with
      | none =>
        dsimp only
        have hlen0 : st.heap.heap.length = 0 := by
          by_contra hc
          have h1 := extractMin_fst st.heap (by omega)
          rw [hpop] at h1
          exact absurd h1 (by simp)
        exact ⟨hD, hlen0⟩
      | some minItem =>
        dsimp only
        have hlen : heapAfter.heap.length + 1 = st.heap.heap.length :=
          MinHeap.extractMin_some_length st.heap minItem heapAfter hpop
        by_cases hguard : minItem.node ∈ st.visited ∨
            (minItem.priority : Distance) > st.dist minItem.node
        · rw [if_pos hguard]
          apply ih _ (dInv_skip g start st minItem heapAfter hD hpop hguard)
          show heapAfter.heap.length + degSum g.adj st.visited ≤ fuel
          omega
        · rw [if_neg hguard]
          have hnv : minItem.node ∉ st.visited := fun h => hguard (Or.inl h)
          have hns : ¬((minItem.priority : Distance) > st.dist minItem.node) :=
            fun h => hguard (Or.inr h)
          apply ih _ (dInv_visit g start hnn st minItem heapAfter hD hpop hnv hns)
          have hvis : (relaxNeighbors g minItem.node minItem.priority
              { dist := st.dist, prev := st.prev
                visited := minItem.node :: st.visited
                heap := heapAfter }).visited = minItem.node :: st.visited :=
            relaxNeighbors_visited _ _ _ _
          rw [hvis]
          cases hfu : g.find minItem.node with
          | none =>
            rw [relaxNeighbors_of_find_none _ _ _ _ hfu]
            have hmono := degSum_mono_cons g.adj minItem.node st.visited
            show heapAfter.heap.length + degSum g.adj (minItem.node :: st.visited) ≤ fuel
            omega
          | some edges =>
            have hhl := relaxNeighbors_heap_length g minItem.node minItem.priority
              { dist := st.dist, prev := st.prev
                visited := minItem.node :: st.visited
                heap := heapAfter } edges hfu
            have hds := degSum_find_cons g.adj minItem.node st.visited edges hnv hfu
            dsimp only at hhl
            show (relaxNeighbors g minItem.node minItem.priority
              { dist := st.dist, prev := st.prev
                visited := minItem.node :: st.visited
                heap := heapAfter }).heap.heap.length +
              degSum g.adj (minItem.node :: st.visited) ≤ fuel
            omega

theorem dInv_complete (g : Graph) (start : Node) (st : DijkstraState)
    (hD : DInv g start st) (hempty : st.heap.heap.length = 0) :
    ∀ v ns (c : ℚ), IsPathList g start v ns c → (g.find v).isSome →
      st.dist v ≤ (c : Distance) := by
  have hnil : st.heap.heap = [] := List.length_eq_zero.mp hempty
  intro v ns c hpath
  induction hpath with
  | single => intro _; exact hD.dist_start
  | @snoc u' v' ns' c' w edges' h hf he ih =>
    intro hsomev
    have hsome' : (g.find u').isSome := by rw [hf]; rfl
    have hle := ih hsome'
    have hu'vis : u' ∈ st.visited := by
      by_contra hc
      have hfin : st.dist u' ≠ ⊤ := (lt_of_le_of_lt hle (WithTop.coe_lt_top c')).ne
      obtain ⟨c0, hc0⟩ := WithTop.ne_top_iff_exists.mp hfin
      obtain ⟨e', he', _, _⟩ := hD.frontier u' hc c0 hc0.symm
      rw [hnil] at he'
      exact absurd he' (List.not_mem_nil e')
    have h1 := hD.relaxed u' hu'vis edges' hf (v', w) he hsomev
    have h2 : st.dist u' + ((w : ℚ) : Distance) ≤ ((c' + w : ℚ) : Distance) := by
      have h3 : ((c' + w : ℚ) : Distance)
          = ((c' : ℚ) : Distance) + ((w : ℚ) : Distance) := by
        push_cast
        rfl
      rw [h3]
      exact add_le_add_right hle _
    exact le_trans h1 h2

theorem walkPrev_none (prev : Node → Option Node) (fuel : Nat) (acc : List Node) :
    walkPrev prev fuel none acc = acc := by
  cases fuel <;> rfl

theorem walkPrev_succ_some (prev : Node → Option Node) (fuel : Nat) (x : Node)
    (acc : List Node) :
    walkPrev prev (fuel + 1) (some x) acc = walkPrev prev fuel (prev x) (x :: acc) := rfl

theorem walkPrev_spec (g : Graph) (start : Node) (st : DijkstraState)
    (hnn : ∀ q ∈ g.adj, ∀ e ∈ q.2, 0 ≤ e.2) (hD : DInv g start st) :
    ∀ (fuel : Nat) (x : Node) (c : ℚ), x ∈ st.visited → st.dist x = (c : Distance) →
      st.visited.length - st.visited.indexOf x ≤ fuel →
      ∀ acc, ∃ ns, walkPrev st.prev fuel (some x) acc = ns ++ acc ∧
        IsPathList g start x ns c := by
  intro fuel
  induction fuel with
  | zero =>
    intro x c hx _ hb
    have hlt := List.indexOf_lt_length.mpr hx
    exact absurd hb (by omega)
  | succ fuel ih =>
    intro x c hx hc hb acc
    cases hpx : st.prev x with
    | none =>
      have hxs : x = start := by
        by_contra hc'
        exact hD.prev_some x hc' (by rw [hc]; exact WithTop.coe_ne_top) hpx
      have hc0 : c = 0 := by
        have hle : st.dist x ≤ ((0 : ℚ) : Distance) := by
          rw [hxs]
          exact hD.dist_start
        rw [hc] at hle
        have h1 : c ≤ 0 := by exact_mod_cast hle
        obtain ⟨ns0, hp0⟩ := hD.realz x c hc
        have h2 := path_cost_nonneg hnn hp0
        linarith
      refine ⟨[x], ?_, ?_⟩
      · rw [walkPrev_succ_some, hpx, walkPrev_none]
        rfl
      · rw [hxs, hc0]
        exact IsPathList.single
    | some u' =>
      obtain ⟨hu'V, edges, hf, w, hvw, heq⟩ := hD.prev_spec x u' hpx
      have hfin' : st.dist u' ≠ ⊤ := hD.vis_fin u' hu'V
      obtain ⟨c', hc'⟩ := WithTop.ne_top_iff_exists.mp hfin'
      have hcw : c = c' + w := by
        have h3 : ((c : ℚ) : Distance) = ((c' + w : ℚ) : Distance) := by
          rw [← hc, heq, ← hc']
          push_cast
          rfl
        exact_mod_cast h3
      have hidxlt := hD.prev_order x u' hpx hx
      have hu'len := List.indexOf_lt_length.mpr hu'V
      obtain ⟨ns', hwalk', hpath'⟩ := ih u' c' hu'V hc'.symm (by omega) (x :: acc)
      refine ⟨ns' ++ [x], ?_, ?_⟩
      · rw [walkPrev_succ_some, hpx, hwalk', List.append_assoc]
        rfl
      · rw [hcw]
        exact IsPathList.snoc hpath' hf hvw

/-- The initial Dijkstra state of calculateShortestPathCore. -/
def dijkstraInit (g : Graph) (start : Node) : DijkstraState :=
  { dist := Function.update (fun _ => (⊤ : Distance)) start ((0 : ℚ) : Distance)
    prev := fun _ => none
    visited := []
    heap := MinHeap.empty.insert start 0 }

/-- The result computed from the final loop state (the tail of
calculateShortestPathCore after the degenerate-case tests). -/
def coreFromState (g : Graph) (start finish : Node) (stF : DijkstraState) : PathResult :=
  if stF.dist finish ≠ ⊤ then
    if (walkPrev stF.prev g.keys.length (some finish) []).head? = some start then
      ⟨stF.dist finish, walkPrev stF.prev g.keys.length (some finish) []⟩
    else ⟨⊤, []⟩
  else ⟨⊤, []⟩

theorem core_unfold (g : Graph) (start finish : Node) (hst : ¬(start = finish))
    (hno : ¬((g.find start).isNone ∨ (g.find finish).isNone)) :
    calculateShortestPathCore g start finish =
      coreFromState g start finish (dijkstraLoopAux g (dijkstraFuel g)
        (dijkstraInit g start)) := by
  unfold calculateShortestPathCore
  rw [if_neg hst, if_neg hno]
  rfl

theorem core_result_spec (g : Graph) (start finish : Node) (stF : DijkstraState)
    (hnn : ∀ q ∈ g.adj, ∀ e ∈ q.2, 0 ≤ e.2) (ht : (g.find finish).isSome)
    (hDF : DInv g start stF) (hempty : stF.heap.heap.length = 0) :
    (∀ ns (c : ℚ), IsPathList g start finish ns c →
      (coreFromState g start finish stF).distance ≤ (c : Distance)) ∧
    ((coreFromState g start finish stF).distance ≠ ⊤ →
      ∃ c : ℚ, (coreFromState g start finish stF).distance = (c : Distance) ∧
        IsPathList g start finish (coreFromState g start finish stF).path c) ∧
    ((coreFromState g start finish stF).distance = ⊤ →
      ∀ ns (c : ℚ), ¬IsPathList g start finish ns c) := by
  by_cases hfin : stF.dist finish = ⊤
  · have hres : coreFromState g start finish stF = ⟨⊤, []⟩ := by
      unfold coreFromState
      rw [if_neg (not_not_intro hfin)]
    rw [hres]
    refine ⟨?_, ?_, ?_⟩
    · intro ns c hp
      have h1 := dInv_complete g start stF hDF hempty finish ns c hp ht
      rw [hfin] at h1
      exact absurd (top_le_iff.mp h1) (WithTop.coe_ne_top)
    · intro h
      exact absurd rfl h
    · intro _ ns c hp
      have h1 := dInv_complete g start stF hDF hempty finish ns c hp ht
      rw [hfin] at h1
      exact absurd (top_le_iff.mp h1) (WithTop.coe_ne_top)
  · obtain ⟨c0, hc0⟩ := WithTop.ne_top_iff_exists.mp hfin
    have hfv : finish ∈ stF.visited := by
      by_contra hc
      obtain ⟨e', he', _, _⟩ := hDF.frontier finish hc c0 hc0.symm
      rw [List.length_eq_zero.mp hempty] at he'
      exact absurd he' (List.not_mem_nil e')
    have hsub : stF.visited ⊆ g.keys := by
      intro v hv
      have h1 := hDF.vis_keys v hv
      by_contra hc
      rw [← Graph.find_eq_none_iff] at hc
      rw [hc] at h1
      exact absurd h1 (by simp)
    have hvlen : stF.visited.length ≤ g.keys.length :=
      (hDF.vis_nodup.subperm hsub).length_le
    have hidx : stF.visited.indexOf finish < stF.visited.length :=
      List.indexOf_lt_length.mpr hfv
    obtain ⟨ns, hwalk, hpath⟩ := walkPrev_spec g start stF hnn hDF g.keys.length
      finish c0 hfv hc0.symm (by omega) []
    rw [List.append_nil] at hwalk
    obtain ⟨t, hts⟩ := path_shape hpath
    have hhead : (walkPrev stF.prev g.keys.length (some finish) []).head?
        = some start := by
      rw [hwalk, hts]
      rfl
    have hres : coreFromState g start finish stF
        = ⟨stF.dist finish, walkPrev stF.prev g.keys.length (some finish) []⟩ := by
      unfold coreFromState
      rw [if_pos hfin, if_pos hhead]
    rw [hres]
    refine ⟨?_, ?_, ?_⟩
    · intro ns' c' hp'
      exact hDF.vis_opt finish hfv ns' c' hp'
    · intro _
      refine ⟨c0, hc0.symm, ?_⟩
      show IsPathList g start finish (walkPrev stF.prev g.keys.length (some finish) []) c0
      rw [hwalk]
      exact hpath
    · intro h
      exact absurd h hfin

/-- C1: for every graph whose edge weights are all non-negative and every
source and target node present in the graph, calculateShortestPath (with
no cache) returns a distance that is a lower bound on the edge-weight sum
of every source-to-target walk, is attained by the returned path (which
is itself a source-to-target walk in the graph) whenever it is finite,
and is the Infinity sentinel exactly when no source-to-target walk
exists — i.e. the returned distance is the minimum over all paths of the
sum of the edge weights, attained by the returned path. -/
theorem dijkstra_computes_shortest_paths (g : Graph) (start finish : Node)
    (hnn : ∀ q ∈ g.adj, ∀ e ∈ q.2, 0 ≤ e.2)
    (hs : (g.find start).isSome) (ht : (g.find finish).isSome) :
    (∀ ns (c : ℚ), IsPathList g start finish ns c →
      (calculateShortestPath g start finish none).1.distance ≤ (c : Distance)) ∧
    ((calculateShortestPath g start finish none).1.distance ≠ ⊤ →
      ∃ c : ℚ, (calculateShortestPath g start finish none).1.distance = (c : Distance) ∧
        IsPathList g start finish (calculateShortestPath g start finish none).1.path c) ∧
    ((calculateShortestPath g start finish none).1.distance = ⊤ →
      ∀ ns (c : ℚ), ¬IsPathList g start finish ns c) := by
  have hfst : (calculateShortestPath g start finish none).1
      = calculateShortestPathCore g start finish := rfl
  rw [hfst]
  by_cases hst : start = finish
  · have hres : calculateShortestPathCore g start finish
        = ⟨((0 : ℚ) : Distance), [start]⟩ := by
      unfold calculateShortestPathCore
      rw [if_pos hst]
    rw [hres]
    refine ⟨?_, ?_, ?_⟩
    · intro ns c hp
      have h0 := path_cost_nonneg hnn hp
      show ((0 : ℚ) : Distance) ≤ (c : Distance)
      exact_mod_cast h0
    · intro _
      refine ⟨0, rfl, ?_⟩
      show IsPathList g start finish [start] 0
      rw [← hst]
      exact IsPathList.single
    · intro h
      exact absurd h (WithTop.coe_ne_top)
  · have hno : ¬((g.find start).isNone ∨ (g.find finish).isNone) := by
      rintro (h | h)
      · rw [Option.isNone_iff_eq_none] at h
        rw [h] at hs
        exact absurd hs (by simp)
      · rw [Option.isNone_iff_eq_none] at h
        rw [h] at ht
        exact absurd ht (by simp)
    rw [core_unfold g start finish hst hno]
    have h1 : (dijkstraInit g start).heap.heap.length = 1 := rfl
    have h2 : degSum g.adj ([] : List Node) = graphEdgeCount g :=
      degSum_nil_visited g.adj
    have h3 : dijkstraFuel g = 1 + graphEdgeCount g := rfl
    have hphi : (dijkstraInit g start).heap.heap.length
        + degSum g.adj (dijkstraInit g start).visited ≤ dijkstraFuel g := by
      show (dijkstraInit g start).heap.heap.length
        + degSum g.adj ([] : List Node) ≤ dijkstraFuel g
      omega
    obtain ⟨hDF, hempty⟩ := dijkstraLoop_spec g start hnn (dijkstraFuel g)
      (dijkstraInit g start) (dInv_init g start hs) hphi
    exact core_result_spec g start finish _ hnn ht hDF hempty

/-- Witness for C1: the hypotheses hold and the theorem applies on the
demo graph with source depot and target locC. -/
theorem dijkstra_computes_shortest_paths_witness :
    ((∀ q ∈ demoGraph.adj, ∀ e ∈ q.2, 0 ≤ e.2) ∧
      (demoGraph.find "depot").isSome ∧ (demoGraph.find "locC").isSome) ∧
    ((∀ ns (c : ℚ), IsPathList demoGraph "depot" "locC" ns c →
      (calculateShortestPath demoGraph "depot" "locC" none).1.distance ≤ (c : Distance)) ∧
    ((calculateShortestPath demoGraph "depot" "locC" none).1.distance ≠ ⊤ →
      ∃ c : ℚ, (calculateShortestPath demoGraph "depot" "locC" none).1.distance
          = (c : Distance) ∧
        IsPathList demoGraph "depot" "locC"
          (calculateShortestPath demoGraph "depot" "locC" none).1.path c) ∧
    ((calculateShortestPath demoGraph "depot" "locC" none).1.distance = ⊤ →
      ∀ ns (c : ℚ), ¬IsPathList demoGraph "depot" "locC" ns c)) :=
  ⟨⟨by with_unfolding_all decide, by with_unfolding_all decide,
      by with_unfolding_all decide⟩,
    dijkstra_computes_shortest_paths demoGraph "depot" "locC"
      (by with_unfolding_all decide) (by with_unfolding_all decide)
      (by with_unfolding_all decide)⟩
